import Mathlib

/-
  Verification development for the Query_Processor repository: a pull-based
  (Volcano) query execution engine over CSV files.

  The definitions below are a shallow embedding of the C++ sources:
    src/types.h       -> Value, Tuple, DataType, ColumnInfo, Schema
    src/expression.h  -> Expr, evalExpr
    src/operator.h    -> the operator algebra (Op / OpState interpreter,
                         scan parsing, the denotational join runs)
    src/plan_parser.h -> collectColumnRefs / isSubsetOf / the Select-over-Join
                         pushdown translation

  Machine floats (C++ float/double) are embedded as exact rationals: no claim
  below depends on rounding, only on variant tags, equality and sign/ordering
  at small concrete values where float arithmetic is exact.
-/

set_option maxHeartbeats 1000000

namespace QP

/-- The four variants of `DataType` in src/types.h. -/
inductive DataType where
  | INT
  | FLOAT
  | STRING
  | BOOL
deriving DecidableEq, Repr

/-- `Value = std::variant<int, float, std::string, bool>` (src/types.h:13).
`float` is embedded as an exact rational. -/
inductive Value where
  | vint (i : Int)
  | vfloat (q : Rat)
  | vstr (s : String)
  | vbool (b : Bool)
deriving DecidableEq, Repr

/-- A `Tuple` is just a list of Values (src/types.h:16). -/
abbrev Tuple := List Value

/-- The discriminator (variant index) of a Value. -/
def variantTag : Value → Nat
  | .vint _ => 0
  | .vfloat _ => 1
  | .vstr _ => 2
  | .vbool _ => 3

/-- `operator==` on `std::variant`: equal variant indices and equal payloads;
different variant indices compare unequal (no exception). -/
def valueBeq : Value → Value → Bool
  | .vint a, .vint b => a == b
  | .vfloat a, .vfloat b => a == b
  | .vstr a, .vstr b => a == b
  | .vbool a, .vbool b => a == b
  | _, _ => false

theorem valueBeq_eq_true_iff (a b : Value) : valueBeq a b = true ↔ a = b := by
  cases a <;> cases b <;> simp [valueBeq]

theorem valueBeq_symm (a b : Value) : valueBeq a b = valueBeq b a := by
  cases a <;> cases b <;> simp [valueBeq, BEq.comm]

/-- Metadata of one column (src/types.h:28). -/
structure ColumnInfo where
  name : String
  dtype : DataType
  index : Nat
deriving DecidableEq, Repr

/-- Error kinds that the engine can raise (C++ exceptions). -/
inductive Err where
  | arithNonNumeric    -- "Arithmetic on non-numeric value ..."
  | divByZero          -- "Division by zero."
  | cmpNonNumeric      -- "Numeric comparison on non-numeric value ..."
  | unsupportedOp      -- "Unsupported or unimplemented binary operator ..."
  | badVariantAccess   -- std::get on the wrong variant
  | unknownColumn      -- columnIndex.at(name) / schemaColumns.at(i) failure
  | tupleIndex         -- tuple[index] out of range (UB in C++, made explicit)
  | outOfRange         -- std::stoi / std::stof std::out_of_range
  | hashNonEq          -- "Hash join only supports equality predicates."
  | hashMisaligned     -- "Hash join predicate columns do not align ..."
  | noFuel             -- interpreter fuel exhausted (not a program error)
deriving DecidableEq, Repr

instance exceptDecEq {e a : Type _} [DecidableEq e] [DecidableEq a] :
    DecidableEq (Except e a) := fun x y =>
  match x, y with
  | .ok v, .ok w =>
      if h : v = w then .isTrue (by rw [h])
      else .isFalse (by intro hc; cases hc; exact h rfl)
  | .error v, .error w =>
      if h : v = w then .isTrue (by rw [h])
      else .isFalse (by intro hc; cases hc; exact h rfl)
  | .ok _, .error _ => .isFalse (by intro hc; cases hc)
  | .error _, .ok _ => .isFalse (by intro hc; cases hc)

/-- `Schema` (src/types.h:35): the ordered column list plus the name-to-index
map.  The `unordered_map` is embedded as an association list where insertion
prepends, so a lookup finds the most recent insertion - exactly the overwrite
behaviour of `columnIndex[name] = ...` in `addColumn`. -/
structure Schema where
  cols : List ColumnInfo
  colIndex : List (String × Nat)
deriving DecidableEq, Repr

namespace Schema

def empty : Schema := ⟨[], []⟩

/-- `addColumn` (src/types.h:39): appends the ColumnInfo at the next index and
overwrites the name's entry in the index map. -/
def addColumn (s : Schema) (name : String) (dtype : DataType) : Schema :=
  ⟨s.cols ++ [⟨name, dtype, s.cols.length⟩], (name, s.cols.length) :: s.colIndex⟩

def lookupIndex (s : Schema) (name : String) : Option Nat :=
  s.colIndex.lookup name

/-- `getColumn` (src/types.h:45): `schemaColumns.at(columnIndex.at(name))`.
A missing name raises (C++ `std::out_of_range` from `map::at`). -/
def getColumn (s : Schema) (name : String) : Except Err ColumnInfo :=
  match s.lookupIndex name with
  | some i =>
      match s.cols[i]? with
      | some ci => .ok ci
      | none => .error .unknownColumn
  | none => .error .unknownColumn

def getColumns (s : Schema) : List ColumnInfo := s.cols

/-- `Schema::merge` (src/types.h:61): copy the left schema, then `addColumn`
each of the right's columns in order. -/
def merge (l r : Schema) : Schema :=
  r.cols.foldl (fun acc c => acc.addColumn c.name c.dtype) l

/-- Build a schema from scratch by repeated `addColumn` (how the catalog
loader in src/catalog.h builds every base schema). -/
def ofCols (cs : List (String × DataType)) : Schema :=
  cs.foldl (fun acc c => acc.addColumn c.1 c.2) empty

end Schema

/-- The expression tree of src/expression.h: Constant, ColumnRef,
Binary (op string), Not. -/
inductive Expr where
  | const (v : Value)
  | col (name : String)
  | binary (op : String) (l r : Expr)
  | enot (e : Expr)
deriving DecidableEq, Repr

/-- `is_numeric` (src/expression.h:52). -/
def isNumericV : Value → Bool
  | .vint _ => true
  | .vfloat _ => true
  | _ => false

/-- `to_double` (src/expression.h:57): numeric Value to double (here: ℚ). -/
def toRatV : Value → Rat
  | .vint i => (i : Rat)
  | .vfloat q => q
  | _ => 0

/-- `Expression::evaluate` (src/expression.h).  Binary evaluates left then
right; arithmetic requires numeric operands and returns a float; EQ/NEQ are
`std::variant` equality (no type check); ordering requires numeric operands;
any other op string is an error.  Not uses `std::get<bool>`. -/
def evalExpr : Expr → Tuple → Schema → Except Err Value
  | .const v, _, _ => .ok v
  | .col n, t, s => do
      let ci ← s.getColumn n
      match t[ci.index]? with
      | some v => .ok v
      | none => .error .tupleIndex
  | .binary op l r, t, s => do
      let lv ← evalExpr l t s
      let rv ← evalExpr r t s
      if op = "ADD" ∨ op = "SUB" ∨ op = "MUL" ∨ op = "DIV" then
        if ¬ (isNumericV lv && isNumericV rv) then .error .arithNonNumeric
        else
          let a := toRatV lv
          let b := toRatV rv
          if op = "ADD" then .ok (.vfloat (a + b))
          else if op = "SUB" then .ok (.vfloat (a - b))
          else if op = "MUL" then .ok (.vfloat (a * b))
          else if b = 0 then .error .divByZero
          else .ok (.vfloat (a / b))
      else if op = "EQ" then .ok (.vbool (valueBeq lv rv))
      else if op = "NEQ" then .ok (.vbool (! valueBeq lv rv))
      else if op = "GT" ∨ op = "GTE" ∨ op = "LT" ∨ op = "LTE" then
        if ¬ (isNumericV lv && isNumericV rv) then .error .cmpNonNumeric
        else
          let a := toRatV lv
          let b := toRatV rv
          if op = "GT" then .ok (.vbool (decide (a > b)))
          else if op = "GTE" then .ok (.vbool (decide (a ≥ b)))
          else if op = "LT" then .ok (.vbool (decide (a < b)))
          else .ok (.vbool (decide (a ≤ b)))
      else .error .unsupportedOp
  | .enot e, t, s => do
      let v ← evalExpr e t s
      match v with
      | .vbool b => .ok (.vbool (! b))
      | _ => .error .badVariantAccess

/-- `std::get<bool>` on the result of a predicate (operator.h uses
`std::get<bool>(predicate_->evaluate(...))`). -/
def asBool : Value → Except Err Bool
  | .vbool b => .ok b
  | _ => .error .badVariantAccess

def evalBool (e : Expr) (t : Tuple) (s : Schema) : Except Err Bool := do
  let v ← evalExpr e t s
  asBool v

/-- Modelled from the spec: `collectColumnRefs` is called by the plan
translator (src/plan_parser.h:93,135) but its definition is not present in
src/expression.h.  Spec 4.1: "every expression can yield the set of
ColumnRef names appearing in its subtree; leaves contribute their name or
none, interior nodes the union of children." -/
def collectColumnRefs : Expr → List String
  | .const _ => []
  | .col n => [n]
  | .binary _ l r => collectColumnRefs l ++ collectColumnRefs r
  | .enot e => collectColumnRefs e

/-- `getSchemaColumnNames` (src/plan_parser.h:17). -/
def schemaNames (s : Schema) : List String := s.cols.map (·.name)

/-- `isSubsetOf` (src/plan_parser.h:26): constant-only (empty) predicates are
not pushed; otherwise every predicate column must appear in the schema. -/
def isSubsetOf (predCols schemaCols : List String) : Bool :=
  (! predCols.isEmpty) && predCols.all (fun c => schemaCols.contains c)

/- ### Scan field parsing (src/operator.h:64-94) -/

/-- C `isspace` characters skipped by `std::stoi` / `std::stof`. -/
def isSpaceChar (c : Char) : Bool :=
  c = ' ' || c = '\t' || c = '\n' || c = '\r' || c = Char.ofNat 11 || c = Char.ofNat 12

/-- How a single field parse can fail: `std::invalid_argument` (no numeric
prefix) or `std::out_of_range` (value outside the target type's range). -/
inductive FieldFail where
  | invalid
  | range
deriving DecidableEq, Repr

def digitsToNat (ds : List Char) : Nat :=
  ds.foldl (fun acc c => acc * 10 + (c.toNat - '0'.toNat)) 0

/-- `std::stoi` on a decimal field: skip whitespace, optional sign, then a
non-empty digit run (trailing garbage ignored); `invalid_argument` when no
digits, `out_of_range` outside the 32-bit int range. -/
def stoiModel (s : String) : Except FieldFail Int :=
  let cs := s.toList.dropWhile isSpaceChar
  let signed : Int × List Char :=
    match cs with
    | '-' :: t => (-1, t)
    | '+' :: t => (1, t)
    | _ => (1, cs)
  let ds := signed.2.takeWhile Char.isDigit
  if ds.isEmpty then .error .invalid
  else
    let v : Int := signed.1 * (digitsToNat ds : Int)
    if v < -(2 ^ 31) ∨ 2 ^ 31 ≤ v then .error .range else .ok v

/-- Largest finite single-precision float, as an exact rational. -/
def maxFloatQ : Rat := (2 ^ 24 - 1) * 2 ^ 104

/-- `std::stof` on a decimal field: skip whitespace, optional sign, digits
with an optional fractional part (at least one digit overall), and an
optional exponent (used only when at least one exponent digit follows).
The value is kept as an exact rational; `out_of_range` when the magnitude
exceeds the float range.  (Hex/inf/nan literal forms and subnormal
underflow are not modelled; no claim evaluates them.) -/
def stofModel (s : String) : Except FieldFail Rat :=
  let cs := s.toList.dropWhile isSpaceChar
  let signed : Rat × List Char :=
    match cs with
    | '-' :: t => (-1, t)
    | '+' :: t => (1, t)
    | _ => (1, cs)
  let ipart := signed.2.takeWhile Char.isDigit
  let rest1 := signed.2.dropWhile Char.isDigit
  let fpart : List Char :=
    match rest1 with
    | '.' :: t => t.takeWhile Char.isDigit
    | _ => []
  let rest2 : List Char :=
    match rest1 with
    | '.' :: t => t.dropWhile Char.isDigit
    | _ => rest1
  if ipart.isEmpty ∧ fpart.isEmpty then .error .invalid
  else
    let mant : Rat :=
      (digitsToNat ipart : Rat) + (digitsToNat fpart : Rat) / (10 ^ fpart.length : Rat)
    let expo : Int :=
      match rest2 with
      | 'e' :: t | 'E' :: t =>
          let esigned : Int × List Char :=
            match t with
            | '-' :: u => (-1, u)
            | '+' :: u => (1, u)
            | _ => (1, t)
          let eds := esigned.2.takeWhile Char.isDigit
          if eds.isEmpty then 0 else esigned.1 * (digitsToNat eds : Int)
      | _ => 0
    let q : Rat := signed.1 * mant * (10 : Rat) ^ expo
    if maxFloatQ < |q| then .error .range else .ok q

/-- Parse one field according to the column's declared type
(src/operator.h:79-84).  STRING is verbatim; BOOL never fails. -/
def parseField (dt : DataType) (f : String) : Except FieldFail Value :=
  match dt with
  | .INT => (Value.vint ·) <$> stoiModel f
  | .FLOAT => (Value.vfloat ·) <$> stofModel f
  | .STRING => .ok (.vstr f)
  | .BOOL => .ok (.vbool (f == "true" || f == "1"))

/-- Split a character list on commas, accumulating the current field in
reverse. -/
def splitCommaAux : List Char → List Char → List String
  | [], acc => [String.mk acc.reverse]
  | c :: cs, acc =>
      if c = ',' then String.mk acc.reverse :: splitCommaAux cs []
      else splitCommaAux cs (c :: acc)

/-- The fields produced by the `std::getline(ss, field, ',')` loop: split on
commas; a trailing separator yields no extra empty field (the stream is at
end of file after consuming it), and an empty line yields no fields at
all. -/
def csvFields (line : String) : List String :=
  if line.toList.isEmpty then []
  else
    let ps := splitCommaAux line.toList []
    if line.toList.getLast? = some ',' then ps.dropLast else ps

/-- A whole-row parse either succeeds, requests a skip (the caught
`invalid_argument` branch, carrying the offending field and column name for
the warning), or aborts (uncaught `out_of_range`). -/
inductive RowFail where
  | skip (field colName : String)
  | fatal
deriving DecidableEq, Repr

/-- The field loop of `ScanOperator::next` (src/operator.h:73-90): consume
fields and columns positionally; fields beyond the schema are ignored
(`break`), missing fields just end the tuple early. -/
def parseFieldsLoop : List ColumnInfo → List String → Except RowFail Tuple
  | _, [] => .ok []
  | [], _ :: _ => .ok []
  | c :: cs, f :: fs =>
      match parseField c.dtype f with
      | .ok v => (v :: ·) <$> parseFieldsLoop cs fs
      | .error .invalid => .error (.skip f c.name)
      | .error .range => .error .fatal

def parseRow (sch : Schema) (line : String) : Except RowFail Tuple :=
  parseFieldsLoop sch.cols (csvFields line)

/-- `ScanOperator::next` over the remaining lines: a clean parse returns
the tuple and the number of lines consumed; the caught `invalid_argument`
emits a warning (collected as `(field, column)` pairs) and recurses to the
next row; an uncaught `out_of_range` aborts; end of file returns no
tuple. -/
def scanNextAux (sch : Schema) :
    List String → List (String × String) × Except Err (Option Tuple × Nat)
  | [] => ([], .ok (none, 0))
  | line :: rest =>
      match parseRow sch line with
      | .ok t => ([], .ok (some t, 1))
      | .error (.skip f c) =>
          let r := scanNextAux sch rest
          ((f, c) :: r.1,
            match r.2 with
            | .ok (res, d) => .ok (res, d + 1)
            | .error e => .error e)
      | .error .fatal => ([], .error .outOfRange)

/-- `ScanOperator::next` from a given line position (src/operator.h:64-94):
the warnings emitted and either the next produced tuple with the new read
position, the end-of-file signal, or the aborting error. -/
def scanNextFrom (sch : Schema) (lines : List String) (pos : Nat) :
    List (String × String) × Except Err (Option Tuple × Nat) :=
  let r := scanNextAux sch (lines.drop pos)
  (r.1,
    match r.2 with
    | .ok (res, d) => .ok (res, pos + d)
    | .error e => .error e)

/- ### Project output schema inference (src/operator.h:155-175) -/

/-- The type chosen for a projection column in `ProjectOperator`'s
constructor: STRING by default, FLOAT for a Binary expression; the
ColumnRef branch of the C++ code has an empty body (the type copy from the
input schema is commented out), so a ColumnRef also stays STRING, and
there is no Constant branch at all. -/
def inferProjType : Expr → DataType
  | .binary _ _ _ => .FLOAT
  | _ => .STRING

/-- The output schema built by `ProjectOperator`'s constructor: one
`addColumn(alias, inferred type)` per projection expression, in order. -/
def projectSchema (exprs : List (String × Expr)) : Schema :=
  exprs.foldl (fun acc p => acc.addColumn p.1 (inferProjType p.2)) Schema.empty

/- ### Denotational runs of the operators over finite deterministic streams.

The claims about join equivalence and predicate pushdown quantify over
deterministic, re-openable child streams; such a child is exactly a finite
list of tuples, re-delivered identically on every close/open cycle.  The
functions below compute the full output stream of each operator's loop from
src/operator.h, evaluating expressions in stream order so that errors
surface at the same point as in the C++ loops. -/

/-- `SelectOperator::next` iterated to exhaustion (src/operator.h:125-137):
keep the tuples whose predicate evaluates to boolean true. -/
def filterRun (pred : Expr) (sch : Schema) : List Tuple → Except Err (List Tuple)
  | [] => .ok []
  | t :: ts => do
      let b ← evalBool pred t sch
      let rest ← filterRun pred sch ts
      .ok (if b then t :: rest else rest)

/-- The inner loop of `NestedLoopJoinOperator::next` (src/operator.h:249-274)
for one left tuple: scan the whole right stream, emitting the combined
tuples that satisfy the condition. -/
def nljInner (cond : Expr) (sch : Schema) (l : Tuple) : List Tuple → Except Err (List Tuple)
  | [] => .ok []
  | r :: rs => do
      let comb := l ++ r
      let b ← evalBool cond comb sch
      let rest ← nljInner cond sch l rs
      .ok (if b then comb :: rest else rest)

/-- `NestedLoopJoinOperator` run to exhaustion: for each left tuple in
order, a full rescan of the right stream (the right child is closed and
re-opened between left tuples, src/operator.h:269-270). -/
def nljRun (cond : Expr) (sch : Schema) : List Tuple → List Tuple → Except Err (List Tuple)
  | [], _ => .ok []
  | l :: ls, rs => do
      let first ← nljInner cond sch l rs
      let rest ← nljRun cond sch ls rs
      .ok (first ++ rest)

/-- The successive left blocks loaded by `loadNextLeftBlock`
(src/operator.h:345-356): up to `bs` tuples per block.  The fuel argument
(instantiated with the list length, an upper bound on the number of
blocks) only makes the recursion structural. -/
def chunksOfAux (bs : Nat) : Nat → List Tuple → List (List Tuple)
  | 0, _ => []
  | _, [] => []
  | fuel + 1, x :: xs =>
      if bs = 0 then []
      else (x :: xs).take bs :: chunksOfAux bs fuel ((x :: xs).drop bs)

def chunksOf (bs : Nat) (xs : List Tuple) : List (List Tuple) :=
  chunksOfAux bs xs.length xs

/-- Block-by-block scanning: each block's tuples each rescan the right
stream fully, in block-load order. -/
def nljBlocks (cond : Expr) (sch : Schema) (rs : List Tuple) :
    List (List Tuple) → Except Err (List Tuple)
  | [] => .ok []
  | blk :: blks => do
      let first ← nljRun cond sch blk rs
      let rest ← nljBlocks cond sch rs blks
      .ok (first ++ rest)

/-- `BlockNestedLoopJoinOperator` run to exhaustion (src/operator.h:307-335):
for each loaded block, for each tuple of the block in order, one full
rescan of the right stream. -/
def bnljRun (cond : Expr) (sch : Schema) (bs : Nat) (ls rs : List Tuple) :
    Except Err (List Tuple) :=
  nljBlocks cond sch rs (chunksOf bs ls)

/-- Append a build tuple to its key's bucket, creating the bucket when the
key is new - `hashTable_[key].push_back(buildTuple)` (src/operator.h:386).
Bucket lists keep build-insertion order; the association list keeps one
entry per distinct key.  Modelled from the spec: the `std::hash<Value>`
specialization is not in src/, and spec 4.9 requires the table's hash and
equality to agree exactly with Value equality, so the table is embedded
purely by key equality. -/
def tableInsert (table : List (Value × List Tuple)) (k : Value) (t : Tuple) :
    List (Value × List Tuple) :=
  match table with
  | [] => [(k, [t])]
  | (k', b) :: rest =>
      if valueBeq k' k then (k', b ++ [t]) :: rest
      else (k', b) :: tableInsert rest k t

/-- `hashTable_.find(key)`: the bucket for a key, empty when absent. -/
def tableFind (table : List (Value × List Tuple)) (k : Value) : List Tuple :=
  match table with
  | [] => []
  | (k', b) :: rest => if valueBeq k' k then b else tableFind rest k

/-- The build phase of `HashJoinOperator::open` (src/operator.h:379-388):
pull every build tuple, evaluate the build key, insert. -/
def buildTableRun (bk : Expr) (schB : Schema) : List Tuple →
    List (Value × List Tuple) → Except Err (List (Value × List Tuple))
  | [], table => .ok table
  | r :: rs, table => do
      let k ← evalExpr bk r schB
      buildTableRun bk schB rs (tableInsert table k r)

/-- The probe phase of `HashJoinOperator::next` (src/operator.h:395-425):
for each probe tuple in order, emit `probe ++ build` for every bucket match
in build-insertion order. -/
def probeRun (pk : Expr) (schP : Schema) (table : List (Value × List Tuple)) :
    List Tuple → Except Err (List Tuple)
  | [] => .ok []
  | l :: ls => do
      let k ← evalExpr pk l schP
      let rest ← probeRun pk schP table ls
      .ok ((tableFind table k).map (fun r => l ++ r) ++ rest)

/-- `HashJoinOperator` run to exhaustion: build from the right child, probe
with the left child (src/plan_parser.h:97 passes left as probe, right as
build). -/
def hashRun (pk bk : Expr) (schP schB : Schema) (ls rs : List Tuple) :
    Except Err (List Tuple) := do
  let table ← buildTableRun bk schB rs []
  probeRun pk schP table ls

/- ### Plan translation (src/plan_parser.h), denotationally.

A plan's Join node is characterised by its `method` string, its condition
expression, and its two children; a child operator is characterised by its
output schema and the (deterministic, re-openable) stream of tuples it
produces.  The functions below compute the stream produced by the operator
tree that `parsePlan` builds for a given plan shape. -/

/-- The `parseJoin` lambda (src/plan_parser.h:71-120): "hash" demands an EQ
condition, extracts the two key expressions and aligns them with the input
sides by column-name subset tests (swapping when the plan wrote the keys in
the opposite order); "block_nested_loop" and the nested-loop default keep
the whole condition. -/
def parseJoinRun (method : String) (cond : Expr) (schL schR : Schema)
    (ls rs : List Tuple) : Except Err (List Tuple) :=
  if method = "hash" then
    match cond with
    | .binary op eL eR =>
        if op = "EQ" then
          let lNames := schemaNames schL
          let rNames := schemaNames schR
          let lk := collectColumnRefs eL
          let rk := collectColumnRefs eR
          if isSubsetOf lk lNames && isSubsetOf rk rNames then
            hashRun eL eR schL schR ls rs
          else if isSubsetOf rk lNames && isSubsetOf lk rNames then
            hashRun eR eL schL schR ls rs
          else .error .hashMisaligned
        else .error .hashNonEq
    | _ => .error .hashNonEq
  else if method = "block_nested_loop" then
    bnljRun cond (Schema.merge schL schR) 100 ls rs
  else
    nljRun cond (Schema.merge schL schR) ls rs

/-- The Select-over-Join handling of `parsePlan` (src/plan_parser.h:128-192):
when the predicate's column set is a non-empty subset of the left (checked
first) or right child schema, the predicate is pushed below the join as a
Filter on that child, and the join is rebuilt as block-nested-loop when the
original method was "block_nested_loop" and as nested-loop otherwise (hash
degrades); when the predicate straddles both sides the join is built
normally with the Filter above it. -/
def translateSelectJoinRun (pred cond : Expr) (method : String)
    (schL schR : Schema) (ls rs : List Tuple) : Except Err (List Tuple) :=
  let pcols := collectColumnRefs pred
  let merged := Schema.merge schL schR
  if isSubsetOf pcols (schemaNames schL) then do
    let lf ← filterRun pred schL ls
    if method = "block_nested_loop" then bnljRun cond merged 100 lf rs
    else nljRun cond merged lf rs
  else if isSubsetOf pcols (schemaNames schR) then do
    let rf ← filterRun pred schR rs
    if method = "block_nested_loop" then bnljRun cond merged 100 ls rf
    else nljRun cond merged ls rf
  else do
    let out ← parseJoinRun method cond schL schR ls rs
    filterRun pred merged out

/-- The un-rewritten Select-over-Join tree: the join built by `parseJoin`
for the original method, with the Filter above it evaluating the predicate
against the merged schema. -/
def selectOverJoinRun (pred cond : Expr) (method : String)
    (schL schR : Schema) (ls rs : List Tuple) : Except Err (List Tuple) := do
  let out ← parseJoinRun method cond schL schR ls rs
  filterRun pred (Schema.merge schL schR) out

/- ### The stateful operator interpreter (src/operator.h).

Each C++ operator class becomes one constructor of `Op` (its immutable
configuration: children, expressions, and for Scan the file's lines and its
qualified schema) and one constructor of `OpState` (its mutable fields).
`openOp` / `nextOp` / `closeOp` are the three virtual methods.  The mutually
recursive `next` loops are made total with a fuel parameter that every
recursive call decrements; running out of fuel is the distinguished
`Err.noFuel`, never produced by the program itself. -/

/-- Operator-tree configuration.  A Scan carries the file contents (all
lines, header included) and its qualified output schema (built in the
ScanOperator constructor from the catalog schema). -/
inductive Op where
  | scan (lines : List String) (sch : Schema)
  | select (pred : Expr) (child : Op)
  | project (exprs : List (String × Expr)) (child : Op)
  | limit (k : Int) (child : Op)
  | nlj (cond : Expr) (left right : Op)
  | bnlj (cond : Expr) (bs : Nat) (left right : Op)
  | hjoin (pk bk : Expr) (probe build : Op)
deriving DecidableEq, Repr

/-- `getSchema` of each operator (select/limit pass through, project builds
its own, joins merge). -/
def opSchema : Op → Schema
  | .scan _ sch => sch
  | .select _ c => opSchema c
  | .project es _ => projectSchema es
  | .limit _ c => opSchema c
  | .nlj _ l r => Schema.merge (opSchema l) (opSchema r)
  | .bnlj _ _ l r => Schema.merge (opSchema l) (opSchema r)
  | .hjoin _ _ p b => Schema.merge (opSchema p) (opSchema b)

/-- The mutable state of each operator:
  Scan: `fileStream_` being open, and the read position (line index);
  Limit: `count_`;
  NLJ: `leftTuple_`/`hasLeftTuple_` collapsed to an Option (on a false
    `next` the C++ out-parameter holds unread garbage);
  BNLJ: `leftBlock_` and `blockIndex_`;
  HashJoin: `hashTable_`, and the current probe tuple with its remaining
    bucket matches (`probeTuple_`/`hasProbeTuple_`/`matchIterator_`). -/
inductive OpState : Op → Type where
  | scanSt {lines sch} (isOpen : Bool) (pos : Nat) : OpState (.scan lines sch)
  | selectSt {p c} (cs : OpState c) : OpState (.select p c)
  | projectSt {es c} (cs : OpState c) : OpState (.project es c)
  | limitSt {k c} (count : Int) (cs : OpState c) : OpState (.limit k c)
  | nljSt {cond l r} (cur : Option Tuple) (ls : OpState l) (rs : OpState r) :
      OpState (.nlj cond l r)
  | bnljSt {cond bs l r} (block : List Tuple) (idx : Nat)
      (ls : OpState l) (rs : OpState r) : OpState (.bnlj cond bs l r)
  | hjoinSt {pk bk p b} (table : List (Value × List Tuple))
      (cur : Option (Tuple × List Tuple)) (ps : OpState p) (bs : OpState b) :
      OpState (.hjoin pk bk p b)
deriving DecidableEq

/-- The state of a freshly constructed operator tree (all default member
initializers: streams closed, counters zero, buffers empty). -/
def initState : (op : Op) → OpState op
  | .scan _ _ => .scanSt false 0
  | .select _ c => .selectSt (initState c)
  | .project _ c => .projectSt (initState c)
  | .limit _ c => .limitSt 0 (initState c)
  | .nlj _ l r => .nljSt none (initState l) (initState r)
  | .bnlj _ _ l r => .bnljSt [] 0 (initState l) (initState r)
  | .hjoin _ _ p b => .hjoinSt [] none (initState p) (initState b)

/-- `close` of each operator: Scan closes its stream; Select/Project/Limit
close the child; both nested-loop joins close both children; HashJoin
closes only the probe side (the build side was closed at the end of the
build phase, src/operator.h:427-430) and retains its hash table. -/
def closeOp : (op : Op) → OpState op → OpState op
  | .scan _ _, .scanSt _ pos => .scanSt false pos
  | .select _ _, .selectSt cs => .selectSt (closeOp _ cs)
  | .project _ _, .projectSt cs => .projectSt (closeOp _ cs)
  | .limit _ _, .limitSt count cs => .limitSt count (closeOp _ cs)
  | .nlj _ _ _, .nljSt cur ls rs => .nljSt cur (closeOp _ ls) (closeOp _ rs)
  | .bnlj _ _ _ _, .bnljSt blk idx ls rs =>
      .bnljSt blk idx (closeOp _ ls) (closeOp _ rs)
  | .hjoin _ _ _ _, .hjoinSt table cur ps bs => .hjoinSt table cur (closeOp _ ps) bs

mutual

/-- `open` of each operator (fueled).  Scan is a no-op when the stream is
already open, otherwise it opens the file and skips the header
(src/operator.h:50-62).  Limit zeroes its counter.  NLJ primes the pump
with the first left tuple.  BNLJ loads the first left block and resets the
right side.  HashJoin clears and rebuilds the hash table from the build
side, closes the build side, opens the probe side and clears the current
probe state (src/operator.h:379-393). -/
def openOp : Nat → (op : Op) → OpState op → Except Err (OpState op)
  | 0, _, _ => .error .noFuel
  | _ + 1, .scan _ _, .scanSt isOpen pos =>
      if isOpen then .ok (.scanSt isOpen pos) else .ok (.scanSt true 1)
  | fuel + 1, .select _ c, .selectSt cs => do
      let cs' ← openOp fuel c cs
      .ok (.selectSt cs')
  | fuel + 1, .project _ c, .projectSt cs => do
      let cs' ← openOp fuel c cs
      .ok (.projectSt cs')
  | fuel + 1, .limit _ c, .limitSt _ cs => do
      let cs' ← openOp fuel c cs
      .ok (.limitSt 0 cs')
  | fuel + 1, .nlj _ l r, .nljSt _ ls rs => do
      let ls' ← openOp fuel l ls
      let rs' ← openOp fuel r rs
      let (res, ls'') ← nextOp fuel l ls'
      .ok (.nljSt res ls'' rs')
  | fuel + 1, .bnlj _ bs l r, .bnljSt _ _ ls rs => do
      let ls' ← openOp fuel l ls
      let rs' ← openOp fuel r rs
      let (blk, ls'') ← pullN fuel l ls' bs
      let rs'' ← openOp fuel r (closeOp r rs')
      .ok (.bnljSt blk 0 ls'' rs'')
  | fuel + 1, .hjoin _ bk p b, .hjoinSt _ _ ps bs => do
      let bs' ← openOp fuel b bs
      let (table, bs'') ← buildLoop fuel bk (opSchema b) b bs' []
      let ps' ← openOp fuel p ps
      .ok (.hjoinSt table none ps' (closeOp b bs''))

/-- `next` of each operator (fueled); `none` is the C++ `return false`. -/
def nextOp : Nat → (op : Op) → OpState op → Except Err (Option Tuple × OpState op)
  | 0, _, _ => .error .noFuel
  | fuel + 1, .scan lines sch, .scanSt isOpen pos =>
      -- `std::getline` on a closed stream fails, so next returns false.
      if isOpen then
        match (scanNextFrom sch lines pos).2 with
        | .ok (res, pos') => .ok (res, .scanSt isOpen pos')
        | .error e => .error e
      else .ok (none, .scanSt isOpen pos)
  | fuel + 1, .select pred c, .selectSt cs => do
      let (res, cs') ← nextOp fuel c cs
      match res with
      | none => .ok (none, .selectSt cs')
      | some t => do
          let b ← evalBool pred t (opSchema c)
          if b then .ok (some t, .selectSt cs')
          else nextOp fuel (.select pred c) (.selectSt cs')
  | fuel + 1, .project es c, .projectSt cs => do
      let (res, cs') ← nextOp fuel c cs
      match res with
      | none => .ok (none, .projectSt cs')
      | some t => do
          let out ← es.mapM (fun p => evalExpr p.2 t (opSchema c))
          .ok (some out, .projectSt cs')
  | fuel + 1, .limit k c, .limitSt count cs =>
      if count ≥ k then .ok (none, .limitSt count cs)
      else do
        let (res, cs') ← nextOp fuel c cs
        match res with
        | none => .ok (none, .limitSt count cs')
        | some t => .ok (some t, .limitSt (count + 1) cs')
  | fuel + 1, .nlj cond l r, .nljSt cur ls rs =>
      match cur with
      | none => .ok (none, .nljSt none ls rs)
      | some lt => do
          let (rres, rs') ← nextOp fuel r rs
          match rres with
          | some rt => do
              let comb := lt ++ rt
              let b ← evalBool cond comb (opSchema (.nlj cond l r))
              if b then .ok (some comb, .nljSt cur ls rs')
              else nextOp fuel (.nlj cond l r) (.nljSt cur ls rs')
          | none => do
              let (lres, ls') ← nextOp fuel l ls
              let rs'' ← openOp fuel r (closeOp r rs')
              nextOp fuel (.nlj cond l r) (.nljSt lres ls' rs'')
  | fuel + 1, .bnlj cond bs l r, .bnljSt blk idx ls rs =>
      if blk.isEmpty then .ok (none, .bnljSt blk idx ls rs)
      else do
        let (rres, rs') ← nextOp fuel r rs
        match rres with
        | some rt =>
            match blk[idx]? with
            | some lt => do
                let comb := lt ++ rt
                let b ← evalBool cond comb (opSchema (.bnlj cond bs l r))
                if b then .ok (some comb, .bnljSt blk idx ls rs')
                else nextOp fuel (.bnlj cond bs l r) (.bnljSt blk idx ls rs')
            | none => .error .tupleIndex  -- unreachable: idx < blk.length
        | none =>
            if idx + 1 ≥ blk.length then do
              let (blk', ls') ← pullN fuel l ls bs
              let rs'' ← openOp fuel r (closeOp r rs')
              if blk'.isEmpty then .ok (none, .bnljSt blk' 0 ls' rs'')
              else nextOp fuel (.bnlj cond bs l r) (.bnljSt blk' 0 ls' rs'')
            else do
              let rs'' ← openOp fuel r (closeOp r rs')
              nextOp fuel (.bnlj cond bs l r) (.bnljSt blk (idx + 1) ls rs'')
  | fuel + 1, .hjoin pk bk p b, .hjoinSt table cur ps bs =>
      match cur with
      | some (pt, m :: ms) =>
          .ok (some (pt ++ m), .hjoinSt table (some (pt, ms)) ps bs)
      | _ => do
          let (pres, ps') ← nextOp fuel p ps
          match pres with
          | none => .ok (none, .hjoinSt table none ps' bs)
          | some pt => do
              let k ← evalExpr pk pt (opSchema p)
              nextOp fuel (.hjoin pk bk p b)
                (.hjoinSt table (some (pt, tableFind table k)) ps' bs)

/-- `loadNextLeftBlock`'s pull loop (src/operator.h:349-351): up to `n`
tuples from the child. -/
def pullN : Nat → (op : Op) → OpState op → Nat → Except Err (List Tuple × OpState op)
  | 0, _, _, _ => .error .noFuel
  | _ + 1, _, st, 0 => .ok ([], st)
  | fuel + 1, op, st, n + 1 => do
      let (res, st') ← nextOp fuel op st
      match res with
      | none => .ok ([], st')
      | some t => do
          let (ts, st'') ← pullN fuel op st' n
          .ok (t :: ts, st'')

/-- The hash-join build loop (src/operator.h:383-387): pull a build tuple,
evaluate the build key, insert, repeat. -/
def buildLoop : Nat → Expr → Schema → (op : Op) → OpState op →
    List (Value × List Tuple) → Except Err (List (Value × List Tuple) × OpState op)
  | 0, _, _, _, _, _ => .error .noFuel
  | fuel + 1, bk, schB, op, st, table => do
      let (res, st') ← nextOp fuel op st
      match res with
      | none => .ok (table, st')
      | some t => do
          let k ← evalExpr bk t schB
          buildLoop fuel bk schB op st' (tableInsert table k t)

end

/-- Repeated `next` until it returns false: the tuple sequence a consumer
observes, together with the final state. -/
def collectOp : Nat → (op : Op) → OpState op → Except Err (List Tuple × OpState op)
  | 0, _, _ => .error .noFuel
  | fuel + 1, op, st => do
      let (res, st') ← nextOp fuel op st
      match res with
      | none => .ok ([], st')
      | some t => do
          let (ts, st'') ← collectOp fuel op st'
          .ok (t :: ts, st'')

/- ### State invariants: which file handles are open, and why a close/open
cycle behaves as a fresh run. -/

/-- Every Scan in the tree has its file stream closed. -/
def scansClosed : (op : Op) → OpState op → Bool
  | .scan _ _, .scanSt isOpen _ => ! isOpen
  | .select _ _, .selectSt cs => scansClosed _ cs
  | .project _ _, .projectSt cs => scansClosed _ cs
  | .limit _ _, .limitSt _ cs => scansClosed _ cs
  | .nlj _ _ _, .nljSt _ ls rs => scansClosed _ ls && scansClosed _ rs
  | .bnlj _ _ _ _, .bnljSt _ _ ls rs => scansClosed _ ls && scansClosed _ rs
  | .hjoin _ _ _ _, .hjoinSt _ _ ps bs => scansClosed _ ps && scansClosed _ bs

/-- The reachable-state invariant: below every hash join, the build subtree
is fully closed (it is drained and closed during `open` and never touched
again until the next `open`). -/
def Inv : (op : Op) → OpState op → Bool
  | .scan _ _, _ => true
  | .select _ _, .selectSt cs => Inv _ cs
  | .project _ _, .projectSt cs => Inv _ cs
  | .limit _ _, .limitSt _ cs => Inv _ cs
  | .nlj _ _ _, .nljSt _ ls rs => Inv _ ls && Inv _ rs
  | .bnlj _ _ _ _, .bnljSt _ _ ls rs => Inv _ ls && Inv _ rs
  | .hjoin _ _ _ _, .hjoinSt _ _ ps bs => Inv _ ps && scansClosed _ bs

theorem scansClosed_init : ∀ op : Op, scansClosed op (initState op) = true := by
  intro op
  induction op with
  | scan lines sch => rfl
  | select p c ih => simpa [initState, scansClosed] using ih
  | project es c ih => simpa [initState, scansClosed] using ih
  | limit k c ih => simpa [initState, scansClosed] using ih
  | nlj cond l r ihl ihr => simp [initState, scansClosed, ihl, ihr]
  | bnlj cond bs l r ihl ihr => simp [initState, scansClosed, ihl, ihr]
  | hjoin pk bk p b ihp ihb => simp [initState, scansClosed, ihp, ihb]

theorem Inv_of_scansClosed : ∀ (op : Op) (s : OpState op),
    scansClosed op s = true → Inv op s = true := by
  intro op
  induction op with
  | scan lines sch => intro s _; cases s; rfl
  | select p c ih =>
      intro s h; cases s with
      | selectSt cs => exact ih cs (by simpa [scansClosed] using h)
  | project es c ih =>
      intro s h; cases s with
      | projectSt cs => exact ih cs (by simpa [scansClosed] using h)
  | limit k c ih =>
      intro s h; cases s with
      | limitSt count cs => exact ih cs (by simpa [scansClosed] using h)
  | nlj cond l r ihl ihr =>
      intro s h; cases s with
      | nljSt cur ls rs =>
          simp only [scansClosed, Bool.and_eq_true] at h
          simp [Inv, ihl ls h.1, ihr rs h.2]
  | bnlj cond bs l r ihl ihr =>
      intro s h; cases s with
      | bnljSt blk idx ls rs =>
          simp only [scansClosed, Bool.and_eq_true] at h
          simp [Inv, ihl ls h.1, ihr rs h.2]
  | hjoin pk bk p b ihp ihb =>
      intro s h; cases s with
      | hjoinSt table cur ps bs =>
          simp only [scansClosed, Bool.and_eq_true] at h
          simp [Inv, ihp ps h.1, h.2]

theorem Inv_init (op : Op) : Inv op (initState op) = true :=
  Inv_of_scansClosed op (initState op) (scansClosed_init op)

/-- `close` preserves the build-side invariant. -/
theorem closeOp_pres_Inv : ∀ (op : Op) (s : OpState op),
    Inv op s = true → Inv op (closeOp op s) = true := by
  intro op
  induction op with
  | scan lines sch => intro s _; cases s; rfl
  | select p c ih =>
      intro s h; cases s with
      | selectSt cs => simpa [closeOp, Inv] using ih cs (by simpa [Inv] using h)
  | project es c ih =>
      intro s h; cases s with
      | projectSt cs => simpa [closeOp, Inv] using ih cs (by simpa [Inv] using h)
  | limit k c ih =>
      intro s h; cases s with
      | limitSt count cs => simpa [closeOp, Inv] using ih cs (by simpa [Inv] using h)
  | nlj cond l r ihl ihr =>
      intro s h; cases s with
      | nljSt cur ls rs =>
          simp only [Inv, Bool.and_eq_true] at h
          simp [closeOp, Inv, ihl ls h.1, ihr rs h.2]
  | bnlj cond bs l r ihl ihr =>
      intro s h; cases s with
      | bnljSt blk idx ls rs =>
          simp only [Inv, Bool.and_eq_true] at h
          simp [closeOp, Inv, ihl ls h.1, ihr rs h.2]
  | hjoin pk bk p b ihp ihb =>
      intro s h; cases s with
      | hjoinSt table cur ps bs =>
          simp only [Inv, Bool.and_eq_true] at h
          simp [closeOp, Inv, ihp ps h.1, h.2]

/-- After `close`, every file handle in the tree is released - provided the
state satisfies the reachable-state invariant (hash-join build sides are
closed already, since `close` does not recurse into them). -/
theorem scansClosed_closeOp : ∀ (op : Op) (s : OpState op),
    Inv op s = true → scansClosed op (closeOp op s) = true := by
  intro op
  induction op with
  | scan lines sch => intro s _; cases s; rfl
  | select p c ih =>
      intro s h; cases s with
      | selectSt cs => simpa [closeOp, scansClosed] using ih cs (by simpa [Inv] using h)
  | project es c ih =>
      intro s h; cases s with
      | projectSt cs => simpa [closeOp, scansClosed] using ih cs (by simpa [Inv] using h)
  | limit k c ih =>
      intro s h; cases s with
      | limitSt count cs => simpa [closeOp, scansClosed] using ih cs (by simpa [Inv] using h)
  | nlj cond l r ihl ihr =>
      intro s h; cases s with
      | nljSt cur ls rs =>
          simp only [Inv, Bool.and_eq_true] at h
          simp [closeOp, scansClosed, ihl ls h.1, ihr rs h.2]
  | bnlj cond bs l r ihl ihr =>
      intro s h; cases s with
      | bnljSt blk idx ls rs =>
          simp only [Inv, Bool.and_eq_true] at h
          simp [closeOp, scansClosed, ihl ls h.1, ihr rs h.2]
  | hjoin pk bk p b ihp ihb =>
      intro s h; cases s with
      | hjoinSt table cur ps bs =>
          simp only [Inv, Bool.and_eq_true] at h
          simp [closeOp, scansClosed, ihp ps h.1, h.2]

/-- `open` from any fully-closed state behaves exactly like `open` on a
freshly constructed tree: Scan re-reads from the top (header skipped),
Limit re-zeroes its counter, NLJ re-primes, BNLJ re-loads its first block,
and HashJoin rebuilds its table - so stale state cannot leak into the new
run. -/
theorem openOp_closed_eq : ∀ (fuel : Nat) (op : Op) (s : OpState op),
    scansClosed op s = true → openOp fuel op s = openOp fuel op (initState op) := by
  intro fuel
  induction fuel with
  | zero => intro op s _; rfl
  | succ fuel ih =>
      intro op s h
      cases op with
      | scan lines sch =>
          cases s with
          | scanSt isOpen pos =>
              have hf : isOpen = false := by simpa [scansClosed] using h
              subst hf
              rfl
      | select p c =>
          cases s with
          | selectSt cs =>
              simp only [openOp, initState]
              rw [ih c cs (by simpa [scansClosed] using h)]
      | project es c =>
          cases s with
          | projectSt cs =>
              simp only [openOp, initState]
              rw [ih c cs (by simpa [scansClosed] using h)]
      | limit k c =>
          cases s with
          | limitSt count cs =>
              simp only [openOp, initState]
              rw [ih c cs (by simpa [scansClosed] using h)]
      | nlj cond l r =>
          cases s with
          | nljSt cur ls rs =>
              simp only [scansClosed, Bool.and_eq_true] at h
              simp only [openOp, initState]
              rw [ih l ls h.1, ih r rs h.2]
      | bnlj cond bs l r =>
          cases s with
          | bnljSt blk idx ls rs =>
              simp only [scansClosed, Bool.and_eq_true] at h
              simp only [openOp, initState]
              rw [ih l ls h.1, ih r rs h.2]
      | hjoin pk bk p b =>
          cases s with
          | hjoinSt table cur ps bs =>
              simp only [scansClosed, Bool.and_eq_true] at h
              simp only [openOp, initState]
              rw [ih p ps h.1, ih b bs h.2]

@[simp] theorem ok_bind {ε α β : Type _} (a : α) (f : α → Except ε β) :
    (Except.ok a >>= f) = f a := rfl

@[simp] theorem error_bind {ε α β : Type _} (e : ε) (f : α → Except ε β) :
    ((Except.error e : Except ε α) >>= f) = .error e := rfl

/-- `open`, `next`, the block pull loop and the hash build loop all preserve
the reachable-state invariant (hash-join build subtrees stay closed). -/
theorem pres_all : ∀ fuel : Nat,
    (∀ (op : Op) (s s' : OpState op), Inv op s = true →
        openOp fuel op s = .ok s' → Inv op s' = true) ∧
    (∀ (op : Op) (s : OpState op) (res : Option Tuple × OpState op),
        Inv op s = true → nextOp fuel op s = .ok res → Inv op res.2 = true) ∧
    (∀ (op : Op) (s : OpState op) (n : Nat) (res : List Tuple × OpState op),
        Inv op s = true → pullN fuel op s n = .ok res → Inv op res.2 = true) ∧
    (∀ (bk : Expr) (schB : Schema) (op : Op) (s : OpState op)
        (tb : List (Value × List Tuple))
        (res : List (Value × List Tuple) × OpState op),
        Inv op s = true → buildLoop fuel bk schB op s tb = .ok res →
        Inv op res.2 = true) := by
  intro fuel
  induction fuel with
  | zero =>
      refine ⟨fun op s s' _ heq => ?_, fun op s res _ heq => ?_,
              fun op s n res _ heq => ?_, fun bk schB op s tb res _ heq => ?_⟩ <;>
        simp [openOp, nextOp, pullN, buildLoop] at heq
  | succ fuel ih =>
      obtain ⟨ihO, ihN, ihP, ihB⟩ := ih
      refine ⟨?_, ?_, ?_, ?_⟩
      · -- openOp preserves Inv
        intro op s s' hInv heq
        cases op with
        | scan lines sch => cases s'; rfl
        | select p c =>
            cases s with
            | selectSt cs =>
                simp only [openOp] at heq
                cases h1 : openOp fuel c cs with
                | error e => rw [h1] at heq; simp at heq
                | ok cs' =>
                    rw [h1] at heq; simp only [ok_bind, Except.ok.injEq] at heq
                    subst heq
                    simpa [Inv] using ihO c cs cs' (by simpa [Inv] using hInv) h1
        | project es c =>
            cases s with
            | projectSt cs =>
                simp only [openOp] at heq
                cases h1 : openOp fuel c cs with
                | error e => rw [h1] at heq; simp at heq
                | ok cs' =>
                    rw [h1] at heq; simp only [ok_bind, Except.ok.injEq] at heq
                    subst heq
                    simpa [Inv] using ihO c cs cs' (by simpa [Inv] using hInv) h1
        | limit k c =>
            cases s with
            | limitSt count cs =>
                simp only [openOp] at heq
                cases h1 : openOp fuel c cs with
                | error e => rw [h1] at heq; simp at heq
                | ok cs' =>
                    rw [h1] at heq; simp only [ok_bind, Except.ok.injEq] at heq
                    subst heq
                    simpa [Inv] using ihO c cs cs' (by simpa [Inv] using hInv) h1
        | nlj cond l r =>
            cases s with
            | nljSt cur ls rs =>
                simp only [Inv, Bool.and_eq_true] at hInv
                simp only [openOp] at heq
                cases h1 : openOp fuel l ls with
                | error e => rw [h1] at heq; simp at heq
                | ok ls' =>
                    rw [h1] at heq; simp only [ok_bind] at heq
                    cases h2 : openOp fuel r rs with
                    | error e => rw [h2] at heq; simp at heq
                    | ok rs' =>
                        rw [h2] at heq; simp only [ok_bind] at heq
                        cases h3 : nextOp fuel l ls' with
                        | error e => rw [h3] at heq; simp at heq
                        | ok pr =>
                            obtain ⟨res2, ls''⟩ := pr
                            rw [h3] at heq
                            simp only [ok_bind, Except.ok.injEq] at heq
                            subst heq
                            have hls' := ihO l ls ls' hInv.1 h1
                            have hls'' := ihN l ls' (res2, ls'') hls' h3
                            have hrs' := ihO r rs rs' hInv.2 h2
                            simp [Inv, hls'', hrs']
        | bnlj cond bs l r =>
            cases s with
            | bnljSt blk idx ls rs =>
                simp only [Inv, Bool.and_eq_true] at hInv
                simp only [openOp] at heq
                cases h1 : openOp fuel l ls with
                | error e => rw [h1] at heq; simp at heq
                | ok ls' =>
                    rw [h1] at heq; simp only [ok_bind] at heq
                    cases h2 : openOp fuel r rs with
                    | error e => rw [h2] at heq; simp at heq
                    | ok rs' =>
                        rw [h2] at heq; simp only [ok_bind] at heq
                        cases h3 : pullN fuel l ls' bs with
                        | error e => rw [h3] at heq; simp at heq
                        | ok pr =>
                            obtain ⟨blk', ls''⟩ := pr
                            rw [h3] at heq; simp only [ok_bind] at heq
                            cases h4 : openOp fuel r (closeOp r rs') with
                            | error e => rw [h4] at heq; simp at heq
                            | ok rs'' =>
                                rw [h4] at heq
                                simp only [ok_bind, Except.ok.injEq] at heq
                                subst heq
                                have hls' := ihO l ls ls' hInv.1 h1
                                have hls'' := ihP l ls' bs (blk', ls'') hls' h3
                                have hrs' := ihO r rs rs' hInv.2 h2
                                have hrs'' := ihO r (closeOp r rs') rs''
                                  (closeOp_pres_Inv r rs' hrs') h4
                                simp [Inv, hls'', hrs'']
        | hjoin pk bk p b =>
            cases s with
            | hjoinSt table cur ps bs =>
                simp only [Inv, Bool.and_eq_true] at hInv
                simp only [openOp] at heq
                cases h1 : openOp fuel b bs with
                | error e => rw [h1] at heq; simp at heq
                | ok bs' =>
                    rw [h1] at heq; simp only [ok_bind] at heq
                    cases h2 : buildLoop fuel bk (opSchema b) b bs' [] with
                    | error e => rw [h2] at heq; simp at heq
                    | ok pr =>
                        obtain ⟨table', bs''⟩ := pr
                        rw [h2] at heq; simp only [ok_bind] at heq
                        cases h3 : openOp fuel p ps with
                        | error e => rw [h3] at heq; simp at heq
                        | ok ps' =>
                            rw [h3] at heq
                            simp only [ok_bind, Except.ok.injEq] at heq
                            subst heq
                            have hbs : Inv b bs := Inv_of_scansClosed b bs hInv.2
                            have hbs' := ihO b bs bs' hbs h1
                            have hbs'' := ihB bk (opSchema b) b bs' [] (table', bs'') hbs' h2
                            have hps' := ihO p ps ps' hInv.1 h3
                            simp [Inv, hps', scansClosed_closeOp b bs'' hbs'']
      · -- nextOp preserves Inv
        intro op s res hInv heq
        cases op with
        | scan lines sch =>
            obtain ⟨r, s'⟩ := res
            cases s'; rfl
        | select p c =>
            cases s with
            | selectSt cs =>
                have hc : Inv c cs = true := by simpa [Inv] using hInv
                simp only [nextOp] at heq
                cases h1 : nextOp fuel c cs with
                | error e => rw [h1] at heq; simp at heq
                | ok pr =>
                    obtain ⟨r1, cs'⟩ := pr
                    have hcs' := ihN c cs (r1, cs') hc h1
                    rw [h1] at heq; simp only [ok_bind] at heq
                    cases r1 with
                    | none =>
                        simp only [Except.ok.injEq] at heq
                        subst heq
                        simpa [Inv] using hcs'
                    | some t =>
                        simp only at heq
                        cases h2 : evalBool p t (opSchema c) with
                        | error e => rw [h2] at heq; simp at heq
                        | ok bb =>
                            rw [h2] at heq; simp only [ok_bind] at heq
                            cases bb with
                            | true =>
                                simp only [if_true, Except.ok.injEq] at heq
                                subst heq
                                simpa [Inv] using hcs'
                            | false =>
                                rw [if_neg (by simp)] at heq
                                exact ihN (.select p c) (.selectSt cs') res
                                  (by simpa [Inv] using hcs') heq
        | project es c =>
            cases s with
            | projectSt cs =>
                have hc : Inv c cs = true := by simpa [Inv] using hInv
                simp only [nextOp] at heq
                cases h1 : nextOp fuel c cs with
                | error e => rw [h1] at heq; simp at heq
                | ok pr =>
                    obtain ⟨r1, cs'⟩ := pr
                    have hcs' := ihN c cs (r1, cs') hc h1
                    rw [h1] at heq; simp only [ok_bind] at heq
                    cases r1 with
                    | none =>
                        simp only [Except.ok.injEq] at heq
                        subst heq
                        simpa [Inv] using hcs'
                    | some t =>
                        simp only at heq
                        cases h2 : es.mapM (fun pr2 => evalExpr pr2.2 t (opSchema c)) with
                        | error e => rw [h2] at heq; simp at heq
                        | ok out =>
                            rw [h2] at heq
                            simp only [ok_bind, Except.ok.injEq] at heq
                            subst heq
                            simpa [Inv] using hcs'
        | limit k c =>
            cases s with
            | limitSt count cs =>
                have hc : Inv c cs = true := by simpa [Inv] using hInv
                simp only [nextOp] at heq
                by_cases hk : count ≥ k
                · rw [if_pos hk] at heq
                  simp only [Except.ok.injEq] at heq
                  subst heq
                  simpa [Inv] using hc
                · rw [if_neg hk] at heq
                  cases h1 : nextOp fuel c cs with
                  | error e => rw [h1] at heq; simp at heq
                  | ok pr =>
                      obtain ⟨r1, cs'⟩ := pr
                      have hcs' := ihN c cs (r1, cs') hc h1
                      rw [h1] at heq; simp only [ok_bind] at heq
                      cases r1 with
                      | none =>
                          simp only [Except.ok.injEq] at heq
                          subst heq
                          simpa [Inv] using hcs'
                      | some t =>
                          simp only [Except.ok.injEq] at heq
                          subst heq
                          simpa [Inv] using hcs'
        | nlj cond l r =>
            cases s with
            | nljSt cur ls rs =>
                simp only [Inv, Bool.and_eq_true] at hInv
                simp only [nextOp] at heq
                cases cur with
                | none =>
                    simp only [Except.ok.injEq] at heq
                    subst heq
                    simp [Inv, hInv.1, hInv.2]
                | some lt =>
                    simp only at heq
                    cases h1 : nextOp fuel r rs with
                    | error e => rw [h1] at heq; simp at heq
                    | ok pr =>
                        obtain ⟨rres, rs'⟩ := pr
                        have hrs' := ihN r rs (rres, rs') hInv.2 h1
                        rw [h1] at heq; simp only [ok_bind] at heq
                        cases rres with
                        | some rt =>
                            simp only at heq
                            cases h2 : evalBool cond (lt ++ rt)
                                (opSchema (.nlj cond l r)) with
                            | error e => rw [h2] at heq; simp at heq
                            | ok bb =>
                                rw [h2] at heq; simp only [ok_bind] at heq
                                cases bb with
                                | true =>
                                    simp only [if_true, Except.ok.injEq] at heq
                                    subst heq
                                    simp [Inv, hInv.1, hrs']
                                | false =>
                                    rw [if_neg (by simp)] at heq
                                    exact ihN (.nlj cond l r)
                                      (.nljSt (some lt) ls rs') res
                                      (by simp [Inv, hInv.1, hrs']) heq
                        | none =>
                            simp only at heq
                            cases h3 : nextOp fuel l ls with
                            | error e => rw [h3] at heq; simp at heq
                            | ok pr2 =>
                                obtain ⟨lres, ls'⟩ := pr2
                                have hls' := ihN l ls (lres, ls') hInv.1 h3
                                rw [h3] at heq; simp only [ok_bind] at heq
                                cases h4 : openOp fuel r (closeOp r rs') with
                                | error e => rw [h4] at heq; simp at heq
                                | ok rs'' =>
                                    have hrs'' := ihO r (closeOp r rs') rs''
                                      (closeOp_pres_Inv r rs' hrs') h4
                                    rw [h4] at heq; simp only [ok_bind] at heq
                                    exact ihN (.nlj cond l r)
                                      (.nljSt lres ls' rs'') res
                                      (by simp [Inv, hls', hrs'']) heq
        | bnlj cond bs l r =>
            cases s with
            | bnljSt blk idx ls rs =>
                simp only [Inv, Bool.and_eq_true] at hInv
                simp only [nextOp] at heq
                by_cases hblk : blk.isEmpty
                · rw [if_pos hblk] at heq
                  simp only [Except.ok.injEq] at heq
                  subst heq
                  simp [Inv, hInv.1, hInv.2]
                · rw [if_neg hblk] at heq
                  cases h1 : nextOp fuel r rs with
                  | error e => rw [h1] at heq; simp at heq
                  | ok pr =>
                      obtain ⟨rres, rs'⟩ := pr
                      have hrs' := ihN r rs (rres, rs') hInv.2 h1
                      rw [h1] at heq; simp only [ok_bind] at heq
                      cases rres with
                      | some rt =>
                          simp only at heq
                          cases hidx : blk[idx]? with
                          | none => rw [hidx] at heq; simp at heq
                          | some lt =>
                              rw [hidx] at heq
                              simp only at heq
                              cases h2 : evalBool cond (lt ++ rt)
                                  (opSchema (.bnlj cond bs l r)) with
                              | error e => rw [h2] at heq; simp at heq
                              | ok bb =>
                                  rw [h2] at heq; simp only [ok_bind] at heq
                                  cases bb with
                                  | true =>
                                      simp only [if_true, Except.ok.injEq] at heq
                                      subst heq
                                      simp [Inv, hInv.1, hrs']
                                  | false =>
                                      rw [if_neg (by simp)] at heq
                                      exact ihN (.bnlj cond bs l r)
                                        (.bnljSt blk idx ls rs') res
                                        (by simp [Inv, hInv.1, hrs']) heq
                      | none =>
                          simp only at heq
                          by_cases hlen : idx + 1 ≥ blk.length
                          · rw [if_pos hlen] at heq
                            cases h2 : pullN fuel l ls bs with
                            | error e => rw [h2] at heq; simp at heq
                            | ok pr2 =>
                                obtain ⟨blk', ls'⟩ := pr2
                                have hls' := ihP l ls bs (blk', ls') hInv.1 h2
                                rw [h2] at heq; simp only [ok_bind] at heq
                                cases h3 : openOp fuel r (closeOp r rs') with
                                | error e => rw [h3] at heq; simp at heq
                                | ok rs'' =>
                                    have hrs'' := ihO r (closeOp r rs') rs''
                                      (closeOp_pres_Inv r rs' hrs') h3
                                    rw [h3] at heq; simp only [ok_bind] at heq
                                    by_cases hblk' : blk'.isEmpty
                                    · rw [if_pos hblk'] at heq
                                      simp only [Except.ok.injEq] at heq
                                      subst heq
                                      simp [Inv, hls', hrs'']
                                    · rw [if_neg hblk'] at heq
                                      exact ihN (.bnlj cond bs l r)
                                        (.bnljSt blk' 0 ls' rs'') res
                                        (by simp [Inv, hls', hrs'']) heq
                          · rw [if_neg hlen] at heq
                            cases h3 : openOp fuel r (closeOp r rs') with
                            | error e => rw [h3] at heq; simp at heq
                            | ok rs'' =>
                                have hrs'' := ihO r (closeOp r rs') rs''
                                  (closeOp_pres_Inv r rs' hrs') h3
                                rw [h3] at heq; simp only [ok_bind] at heq
                                exact ihN (.bnlj cond bs l r)
                                  (.bnljSt blk (idx + 1) ls rs'') res
                                  (by simp [Inv, hInv.1, hrs'']) heq
        | hjoin pk bk p b =>
            cases s with
            | hjoinSt table cur ps bs =>
                simp only [Inv, Bool.and_eq_true] at hInv
                have hstep : ∀ (heq2 : (do
                      let (pres, ps') ← nextOp fuel p ps
                      match pres with
                      | none => .ok (none, OpState.hjoinSt table none ps' bs)
                      | some pt => do
                          let kk ← evalExpr pk pt (opSchema p)
                          nextOp fuel (.hjoin pk bk p b)
                            (.hjoinSt table (some (pt, tableFind table kk)) ps' bs)) = .ok res),
                    Inv (.hjoin pk bk p b) res.2 = true := by
                  intro heq2
                  cases h1 : nextOp fuel p ps with
                  | error e => rw [h1] at heq2; simp at heq2
                  | ok pr =>
                      obtain ⟨pres, ps'⟩ := pr
                      have hps' := ihN p ps (pres, ps') hInv.1 h1
                      rw [h1] at heq2; simp only [ok_bind] at heq2
                      cases pres with
                      | none =>
                          simp only [Except.ok.injEq] at heq2
                          subst heq2
                          simp [Inv, hps', hInv.2]
                      | some pt =>
                          simp only at heq2
                          cases h2 : evalExpr pk pt (opSchema p) with
                          | error e => rw [h2] at heq2; simp at heq2
                          | ok kk =>
                              rw [h2] at heq2; simp only [ok_bind] at heq2
                              exact ihN (.hjoin pk bk p b)
                                (.hjoinSt table (some (pt, tableFind table kk)) ps' bs)
                                res (by simp [Inv, hps', hInv.2]) heq2
                cases cur with
                | none =>
                    simp only [nextOp] at heq
                    exact hstep heq
                | some pr =>
                    obtain ⟨pt, ms⟩ := pr
                    cases ms with
                    | nil =>
                        simp only [nextOp] at heq
                        exact hstep heq
                    | cons m ms =>
                        simp only [nextOp, Except.ok.injEq] at heq
                        subst heq
                        simp [Inv, hInv.1, hInv.2]
      · -- pullN preserves Inv
        intro op s n res hInv heq
        cases n with
        | zero =>
            simp only [pullN, Except.ok.injEq] at heq
            subst heq
            exact hInv
        | succ n =>
            simp only [pullN] at heq
            cases h1 : nextOp fuel op s with
            | error e => rw [h1] at heq; simp at heq
            | ok pr =>
                obtain ⟨r1, st'⟩ := pr
                have hst' := ihN op s (r1, st') hInv h1
                rw [h1] at heq; simp only [ok_bind] at heq
                cases r1 with
                | none =>
                    simp only [Except.ok.injEq] at heq
                    subst heq
                    exact hst'
                | some t =>
                    simp only at heq
                    cases h2 : pullN fuel op st' n with
                    | error e => rw [h2] at heq; simp at heq
                    | ok pr2 =>
                        obtain ⟨ts, st''⟩ := pr2
                        have hst'' := ihP op st' n (ts, st'') hst' h2
                        rw [h2] at heq
                        simp only [ok_bind, Except.ok.injEq] at heq
                        subst heq
                        exact hst''
      · -- buildLoop preserves Inv
        intro bk schB op s tb res hInv heq
        simp only [buildLoop] at heq
        cases h1 : nextOp fuel op s with
        | error e => rw [h1] at heq; simp at heq
        | ok pr =>
            obtain ⟨r1, st'⟩ := pr
            have hst' := ihN op s (r1, st') hInv h1
            rw [h1] at heq; simp only [ok_bind] at heq
            cases r1 with
            | none =>
                simp only [Except.ok.injEq] at heq
                subst heq
                exact hst'
            | some t =>
                simp only at heq
                cases h2 : evalExpr bk t schB with
                | error e => rw [h2] at heq; simp at heq
                | ok kk =>
                    rw [h2] at heq; simp only [ok_bind] at heq
                    exact ihB bk schB op st' (tableInsert tb kk t) res hst' heq

theorem collect_pres_Inv : ∀ (fuel : Nat) (op : Op) (s : OpState op)
    (res : List Tuple × OpState op), Inv op s = true →
    collectOp fuel op s = .ok res → Inv op res.2 = true := by
  intro fuel
  induction fuel with
  | zero => intro op s res _ heq; simp [collectOp] at heq
  | succ fuel ih =>
      intro op s res hInv heq
      simp only [collectOp] at heq
      cases h1 : nextOp fuel op s with
      | error e => rw [h1] at heq; simp at heq
      | ok pr =>
          obtain ⟨r1, st'⟩ := pr
          have hst' := (pres_all fuel).2.1 op s (r1, st') hInv h1
          rw [h1] at heq; simp only [ok_bind] at heq
          cases r1 with
          | none =>
              simp only [Except.ok.injEq] at heq
              subst heq
              exact hst'
          | some t =>
              simp only at heq
              cases h2 : collectOp fuel op st' with
              | error e => rw [h2] at heq; simp at heq
              | ok pr2 =>
                  obtain ⟨ts, st''⟩ := pr2
                  have hst'' := ih op st' (ts, st'') hst' h2
                  rw [h2] at heq
                  simp only [ok_bind, Except.ok.injEq] at heq
                  subst heq
                  exact hst''

/-- After a completed run from a fresh tree, `close` followed by `open`
restores exactly the state that the first `open` produced. -/
theorem open_after_close_run (g f : Nat) (op : Op) (s0 : OpState op)
    (out1 : List Tuple) (s1 : OpState op)
    (hopen : openOp g op (initState op) = .ok s0)
    (hrun : collectOp f op s0 = .ok (out1, s1)) :
    openOp g op (closeOp op s1) = .ok s0 := by
  have hInv0 : Inv op s0 = true :=
    (pres_all g).1 op (initState op) s0 (Inv_init op) hopen
  have hInv1 : Inv op s1 = true := by
    have := collect_pres_Inv f op s0 (out1, s1) hInv0 hrun
    simpa using this
  have hclosed : scansClosed op (closeOp op s1) = true :=
    scansClosed_closeOp op s1 hInv1
  calc openOp g op (closeOp op s1)
      = openOp g op (initState op) := openOp_closed_eq g op (closeOp op s1) hclosed
    _ = .ok s0 := hopen

/- ### Schema structure lemmas -/

/-- The (name, type) projection of a ColumnInfo. -/
def colProj (ci : ColumnInfo) : String × DataType := (ci.name, ci.dtype)

/-- Adding a list of (name, type) pairs to a schema by repeated `addColumn`
(the loop shape shared by the catalog loader, `Schema::merge` and the
Project constructor). -/
def addAll (s : Schema) (ps : List (String × DataType)) : Schema :=
  ps.foldl (fun a c => a.addColumn c.1 c.2) s

theorem ofCols_eq_addAll (cs : List (String × DataType)) :
    Schema.ofCols cs = addAll Schema.empty cs := rfl

theorem addAll_cons (s : Schema) (c : String × DataType) (ps : List (String × DataType)) :
    addAll s (c :: ps) = addAll (s.addColumn c.1 c.2) ps := rfl

theorem addAll_append (s : Schema) (ps qs : List (String × DataType)) :
    addAll s (ps ++ qs) = addAll (addAll s ps) qs := by
  simp [addAll, List.foldl_append]

theorem merge_eq_addAll (l r : Schema) :
    Schema.merge l r = addAll l (r.cols.map colProj) := by
  simp [Schema.merge, addAll, List.foldl_map, colProj]

theorem addAll_cols_proj : ∀ (ps : List (String × DataType)) (s : Schema),
    (addAll s ps).cols.map colProj = s.cols.map colProj ++ ps := by
  intro ps
  induction ps with
  | nil => intro s; simp [addAll]
  | cons c ps ih =>
      intro s
      rw [addAll_cons, ih]
      simp [Schema.addColumn, colProj]

theorem addAll_cols_length (ps : List (String × DataType)) (s : Schema) :
    (addAll s ps).cols.length = s.cols.length + ps.length := by
  have h := addAll_cols_proj ps s
  have h1 := congrArg List.length h
  simpa using h1

theorem ofCols_cols_length (cs : List (String × DataType)) :
    (Schema.ofCols cs).cols.length = cs.length := by
  rw [ofCols_eq_addAll]
  simp [addAll_cols_length, Schema.empty]

theorem ofCols_names (cs : List (String × DataType)) :
    schemaNames (Schema.ofCols cs) = cs.map (·.1) := by
  have h := addAll_cols_proj cs Schema.empty
  have h1 := congrArg (List.map Prod.fst) h
  simp only [List.map_map, Schema.empty] at h1
  simpa [schemaNames, Function.comp, colProj] using h1

theorem addAll_cols_prefix : ∀ (ps : List (String × DataType)) (s : Schema),
    ∃ ext, (addAll s ps).cols = s.cols ++ ext := by
  intro ps
  induction ps with
  | nil => intro s; exact ⟨[], by simp [addAll]⟩
  | cons c ps ih =>
      intro s
      obtain ⟨ext, hext⟩ := ih (s.addColumn c.1 c.2)
      rw [addAll_cons]
      exact ⟨⟨c.1, c.2, s.cols.length⟩ :: ext, by
        rw [hext]; simp [Schema.addColumn]⟩

theorem addColumn_lookupIndex (s : Schema) (n : String) (ty : DataType) (m : String) :
    (s.addColumn n ty).lookupIndex m =
      if m == n then some s.cols.length else s.lookupIndex m := by
  simp only [Schema.addColumn, Schema.lookupIndex, List.lookup]
  by_cases h : m = n
  · simp [h]
  · have hb : (m == n) = false := by simpa using h
    simp [hb]

/-- Lookup through a block of added columns: a name that occurs among the
added pairs resolves to its most recent added position (shifted past the
original columns); otherwise the original lookup applies. -/
theorem addAll_lookup : ∀ (ps : List (String × DataType)) (s : Schema) (n : String),
    (addAll s ps).lookupIndex n =
      match (Schema.ofCols ps).lookupIndex n with
      | some j => some (s.cols.length + j)
      | none => s.lookupIndex n := by
  intro ps
  induction ps with
  | nil => intro s n; simp [addAll, Schema.ofCols, Schema.empty, Schema.lookupIndex]
  | cons c ps ih =>
      intro s n
      rw [addAll_cons, ih]
      have hr : (Schema.ofCols (c :: ps)).lookupIndex n =
          match (Schema.ofCols ps).lookupIndex n with
          | some j => some (1 + j)
          | none => (Schema.empty.addColumn c.1 c.2).lookupIndex n := by
        have := ih (Schema.empty.addColumn c.1 c.2) n
        simpa [Schema.ofCols, addAll_cons, Schema.addColumn, Schema.empty] using this
      rw [hr]
      cases hps : (Schema.ofCols ps).lookupIndex n with
      | some j =>
          simp [Schema.addColumn, Nat.add_assoc, Nat.add_comm 1 j]
      | none =>
          rw [addColumn_lookupIndex, addColumn_lookupIndex]
          by_cases hn : n = c.1
          · simp [hn, Schema.empty]
          · have hb : (n == c.1) = false := by simpa using hn
            simp [hb, Schema.empty, Schema.lookupIndex, List.lookup]

theorem ofCols_append_lookup (asl bsl : List (String × DataType)) (n : String) :
    (Schema.ofCols (asl ++ bsl)).lookupIndex n =
      match (Schema.ofCols bsl).lookupIndex n with
      | some j => some (asl.length + j)
      | none => (Schema.ofCols asl).lookupIndex n := by
  rw [ofCols_eq_addAll, addAll_append, ← ofCols_eq_addAll]
  rw [addAll_lookup, ofCols_cols_length]

/-- Well-formedness of `addColumn`-built schemas: stored indices are list
positions, lookups stay in range, and lookups hit only present names. -/
theorem addAll_wfIdx : ∀ (ps : List (String × DataType)) (s : Schema),
    (∀ (i : Nat) (ci : ColumnInfo), s.cols[i]? = some ci → ci.index = i) →
    (∀ (i : Nat) (ci : ColumnInfo), (addAll s ps).cols[i]? = some ci → ci.index = i) := by
  intro ps
  induction ps with
  | nil => intro s h; simpa [addAll] using h
  | cons c ps ih =>
      intro s h
      rw [addAll_cons]
      refine ih _ ?_
      intro i ci hci
      simp only [Schema.addColumn] at hci
      rcases Nat.lt_trichotomy i s.cols.length with hlt | heqi | hgt
      · rw [List.getElem?_append_left hlt] at hci
        exact h i ci hci
      · subst heqi
        rw [List.getElem?_concat_length] at hci
        cases hci
        rfl
      · rw [List.getElem?_eq_none] at hci
        · cases hci
        · simpa using hgt

theorem ofCols_wfIdx (cs : List (String × DataType)) :
    ∀ (i : Nat) (ci : ColumnInfo), (Schema.ofCols cs).cols[i]? = some ci → ci.index = i := by
  rw [ofCols_eq_addAll]
  exact addAll_wfIdx cs Schema.empty (by intro i ci h; simp [Schema.empty] at h)

theorem addAll_wfLt : ∀ (ps : List (String × DataType)) (s : Schema),
    (∀ n i, s.lookupIndex n = some i → i < s.cols.length) →
    (∀ n i, (addAll s ps).lookupIndex n = some i → i < (addAll s ps).cols.length) := by
  intro ps
  induction ps with
  | nil => intro s h; simpa [addAll] using h
  | cons c ps ih =>
      intro s h
      rw [addAll_cons]
      refine ih _ ?_
      intro n i hni
      rw [addColumn_lookupIndex] at hni
      by_cases hn : n == c.1
      · rw [if_pos hn] at hni
        cases hni
        simp [Schema.addColumn]
      · rw [if_neg hn] at hni
        have := h n i hni
        simp [Schema.addColumn]
        omega

theorem ofCols_wfLt (cs : List (String × DataType)) :
    ∀ n i, (Schema.ofCols cs).lookupIndex n = some i → i < cs.length := by
  intro n i h
  have := addAll_wfLt cs Schema.empty
    (by intro n i h; simp [Schema.empty, Schema.lookupIndex] at h) n i
    (by rwa [ofCols_eq_addAll] at h)
  rwa [← ofCols_eq_addAll, ofCols_cols_length] at this

theorem addAll_wfMem : ∀ (ps : List (String × DataType)) (s : Schema),
    (∀ n i, s.lookupIndex n = some i → n ∈ schemaNames s) →
    (∀ n i, (addAll s ps).lookupIndex n = some i → n ∈ schemaNames (addAll s ps)) := by
  intro ps
  induction ps with
  | nil => intro s h; simpa [addAll] using h
  | cons c ps ih =>
      intro s h
      rw [addAll_cons]
      refine ih _ ?_
      intro n i hni
      rw [addColumn_lookupIndex] at hni
      by_cases hn : n == c.1
      · have : n = c.1 := by simpa using hn
        subst this
        simp [schemaNames, Schema.addColumn]
      · rw [if_neg hn] at hni
        have := h n i hni
        simp only [schemaNames, Schema.addColumn, List.map_append] at *
        exact List.mem_append_left _ this

theorem ofCols_lookup_none (cs : List (String × DataType)) (n : String)
    (hn : n ∉ cs.map (·.1)) : (Schema.ofCols cs).lookupIndex n = none := by
  cases h : (Schema.ofCols cs).lookupIndex n with
  | none => rfl
  | some i =>
      have hmem := addAll_wfMem cs Schema.empty
        (by intro n i h; simp [Schema.empty, Schema.lookupIndex] at h) n i
        (by rwa [ofCols_eq_addAll] at h)
      rw [← ofCols_eq_addAll, ofCols_names] at hmem
      exact absurd hmem hn

theorem merge_ofCols (a b : List (String × DataType)) :
    Schema.merge (Schema.ofCols a) (Schema.ofCols b) = Schema.ofCols (a ++ b) := by
  rw [merge_eq_addAll]
  have hproj : (Schema.ofCols b).cols.map colProj = b := by
    have := addAll_cols_proj b Schema.empty
    simpa [Schema.empty, ofCols_eq_addAll] using this
  rw [hproj, ofCols_eq_addAll, ofCols_eq_addAll, addAll_append]

theorem ofCols_cols_getElem (cs : List (String × DataType)) (i : Nat) :
    (Schema.ofCols cs).cols[i]? =
      (cs[i]?).map (fun c => (⟨c.1, c.2, i⟩ : ColumnInfo)) := by
  have hmapeq : (Schema.ofCols cs).cols.map colProj = cs := by
    have := addAll_cols_proj cs Schema.empty
    simpa [Schema.empty, ofCols_eq_addAll] using this
  cases h : (Schema.ofCols cs).cols[i]? with
  | none =>
      have hge : (Schema.ofCols cs).cols.length ≤ i := by
        by_contra hc
        push_neg at hc
        rw [List.getElem?_eq_getElem hc] at h
        cases h
      have : cs.length ≤ i := by
        rw [← ofCols_cols_length cs]
        exact hge
      rw [List.getElem?_eq_none this]
      rfl
  | some ci =>
      have hidx : ci.index = i := ofCols_wfIdx cs i ci h
      have hproj : cs[i]? = some (colProj ci) := by
        calc cs[i]? = ((Schema.ofCols cs).cols.map colProj)[i]? := by rw [hmapeq]
          _ = ((Schema.ofCols cs).cols[i]?).map colProj := by rw [List.getElem?_map]
          _ = some (colProj ci) := by rw [h]; rfl
      rw [hproj]
      cases ci with
      | mk nm dt ix => simp_all [colProj]

theorem getColumn_append_left (a b : List (String × DataType)) (n : String)
    (hn : n ∉ b.map (·.1)) :
    (Schema.ofCols (a ++ b)).getColumn n = (Schema.ofCols a).getColumn n := by
  unfold Schema.getColumn
  rw [ofCols_append_lookup, ofCols_lookup_none b n hn]
  cases ha : (Schema.ofCols a).lookupIndex n with
  | none => rfl
  | some i =>
      dsimp only
      have hi : i < a.length := ofCols_wfLt a n i ha
      rw [ofCols_cols_getElem (a ++ b) i, ofCols_cols_getElem a i]
      rw [List.getElem?_append_left hi]

theorem getColumn_append_right (a b : List (String × DataType)) (n : String)
    (hn : n ∉ a.map (·.1)) :
    (Schema.ofCols (a ++ b)).getColumn n =
      ((Schema.ofCols b).getColumn n).map
        (fun ci => (⟨ci.name, ci.dtype, a.length + ci.index⟩ : ColumnInfo)) := by
  unfold Schema.getColumn
  rw [ofCols_append_lookup]
  cases hb : (Schema.ofCols b).lookupIndex n with
  | none => rw [ofCols_lookup_none a n hn]; rfl
  | some j =>
      dsimp only
      have hj : j < b.length := ofCols_wfLt b n j hb
      rw [ofCols_cols_getElem (a ++ b) (a.length + j), ofCols_cols_getElem b j]
      have : (a ++ b)[a.length + j]? = b[j]? := by
        rw [List.getElem?_append_right (Nat.le_add_right _ _)]
        congr 1
        omega
      rw [this]
      cases hbj : b[j]? with
      | none => rfl
      | some c => rfl

theorem ofCols_getColumn_ok (cs : List (String × DataType)) (n : String)
    (ci : ColumnInfo) (h : (Schema.ofCols cs).getColumn n = .ok ci) :
    ci.index < cs.length := by
  unfold Schema.getColumn at h
  cases hl : (Schema.ofCols cs).lookupIndex n with
  | none => rw [hl] at h; cases h
  | some i =>
      rw [hl] at h
      dsimp only at h
      cases hc : (Schema.ofCols cs).cols[i]? with
      | none => rw [hc] at h; cases h
      | some ci' =>
          rw [hc] at h
          cases h
          have := ofCols_wfIdx cs i ci hc
          rw [this]
          exact ofCols_wfLt cs n i hl

/-- Evaluating an expression that references no right-side column against a
combined tuple and the merged schema is the same as evaluating it against
the left tuple and the left schema alone. -/
theorem evalExpr_append_left (a b : List (String × DataType)) :
    ∀ (e : Expr) (l r : Tuple), l.length = a.length →
    (∀ c ∈ collectColumnRefs e, c ∉ b.map (·.1)) →
    evalExpr e (l ++ r) (Schema.ofCols (a ++ b)) = evalExpr e l (Schema.ofCols a) := by
  intro e
  induction e with
  | const v => intros; rfl
  | col n =>
      intro l r hlen hdisj
      have hn : n ∉ b.map (·.1) := hdisj n (by simp [collectColumnRefs])
      simp only [evalExpr]
      rw [getColumn_append_left a b n hn]
      cases hg : (Schema.ofCols a).getColumn n with
      | error e => rfl
      | ok ci =>
          have hci : ci.index < l.length := by
            rw [hlen]
            exact ofCols_getColumn_ok a n ci hg
          simp only [ok_bind]
          rw [List.getElem?_append_left hci]
  | binary op el er ihl ihr =>
      intro l r hlen hdisj
      simp only [evalExpr]
      rw [ihl l r hlen (fun c hc => hdisj c (by simp [collectColumnRefs, hc])),
          ihr l r hlen (fun c hc => hdisj c (by simp [collectColumnRefs, hc]))]
  | enot e ihe =>
      intro l r hlen hdisj
      simp only [evalExpr]
      rw [ihe l r hlen (fun c hc => hdisj c (by simpa [collectColumnRefs] using hc))]

/-- Evaluating an expression that references no left-side column against a
combined tuple and the merged schema is the same as evaluating it against
the right tuple and the right schema alone (merged lookups shadow left
occurrences with the right-side re-additions). -/
theorem evalExpr_append_right (a b : List (String × DataType)) :
    ∀ (e : Expr) (l r : Tuple), l.length = a.length →
    (∀ c ∈ collectColumnRefs e, c ∉ a.map (·.1)) →
    evalExpr e (l ++ r) (Schema.ofCols (a ++ b)) = evalExpr e r (Schema.ofCols b) := by
  intro e
  induction e with
  | const v => intros; rfl
  | col n =>
      intro l r hlen hdisj
      have hn : n ∉ a.map (·.1) := hdisj n (by simp [collectColumnRefs])
      simp only [evalExpr]
      rw [getColumn_append_right a b n hn]
      cases hg : (Schema.ofCols b).getColumn n with
      | error e => rfl
      | ok ci =>
          simp only [Except.map, ok_bind]
          have : (l ++ r)[a.length + ci.index]? = r[ci.index]? := by
            rw [List.getElem?_append_right (by omega : l.length ≤ a.length + ci.index)]
            congr 1
            omega
          rw [this]
  | binary op el er ihl ihr =>
      intro l r hlen hdisj
      simp only [evalExpr]
      rw [ihl l r hlen (fun c hc => hdisj c (by simp [collectColumnRefs, hc])),
          ihr l r hlen (fun c hc => hdisj c (by simp [collectColumnRefs, hc]))]
  | enot e ihe =>
      intro l r hlen hdisj
      simp only [evalExpr]
      rw [ihe l r hlen (fun c hc => hdisj c (by simpa [collectColumnRefs] using hc))]

/- ### Evaluated forms of the denotational runs -/

theorem valueBeq_eq_decide (a b : Value) : valueBeq a b = decide (a = b) := by
  by_cases h : a = b
  · subst h
    simp [(valueBeq_eq_true_iff a a).mpr rfl]
  · have hf : valueBeq a b = false := by
      cases hv : valueBeq a b
      · rfl
      · exact absurd ((valueBeq_eq_true_iff a b).mp hv) h
    simp [hf, h]

theorem filterRun_eval (pred : Expr) (sch : Schema) (pf : Tuple → Bool) :
    ∀ ts : List Tuple, (∀ t ∈ ts, evalBool pred t sch = .ok (pf t)) →
    filterRun pred sch ts = .ok (ts.filter pf) := by
  intro ts
  induction ts with
  | nil => intro _; rfl
  | cons t ts ih =>
      intro h
      simp only [filterRun]
      rw [h t (by simp), ih (fun u hu => h u (by simp [hu]))]
      simp only [ok_bind, List.filter_cons]

theorem nljInner_eval (cond : Expr) (sch : Schema) (l : Tuple) (pf : Tuple → Bool) :
    ∀ rs : List Tuple, (∀ r ∈ rs, evalBool cond (l ++ r) sch = .ok (pf r)) →
    nljInner cond sch l rs = .ok ((rs.filter pf).map (fun r => l ++ r)) := by
  intro rs
  induction rs with
  | nil => intro _; rfl
  | cons r rs ih =>
      intro h
      simp only [nljInner]
      rw [h r (by simp), ih (fun u hu => h u (by simp [hu]))]
      simp only [ok_bind, List.filter_cons]
      cases hpf : pf r <;> simp [hpf]
      

theorem nljRun_eval (cond : Expr) (sch : Schema) (p : Tuple → Tuple → Bool)
    (rs : List Tuple) :
    ∀ ls : List Tuple,
    (∀ l ∈ ls, ∀ r ∈ rs, evalBool cond (l ++ r) sch = .ok (p l r)) →
    nljRun cond sch ls rs =
      .ok (ls.flatMap (fun l => (rs.filter (p l)).map (fun r => l ++ r))) := by
  intro ls
  induction ls with
  | nil => intro _; rfl
  | cons l ls ih =>
      intro h
      simp only [nljRun]
      rw [nljInner_eval cond sch l (p l) rs (fun r hr => h l (by simp) r hr),
          ih (fun u hu r hr => h u (by simp [hu]) r hr)]
      simp [ok_bind]

theorem chunksOfAux_join (bs : Nat) (hbs : bs ≠ 0) :
    ∀ (n : Nat) (xs : List Tuple), xs.length ≤ n →
    (chunksOfAux bs n xs).flatten = xs := by
  intro n
  induction n with
  | zero =>
      intro xs hx
      have hnil : xs = [] := List.eq_nil_of_length_eq_zero (Nat.le_zero.mp hx)
      subst hnil
      rfl
  | succ n ih =>
      intro xs hx
      cases xs with
      | nil => rfl
      | cons x xs =>
          simp only [chunksOfAux]
          rw [if_neg hbs]
          simp only [List.flatten_cons]
          have h2 : 0 < bs := Nat.pos_of_ne_zero hbs
          rw [ih ((x :: xs).drop bs) (by simp only [List.length_drop]; simp at hx ⊢; omega)]
          exact List.take_append_drop bs (x :: xs)

theorem chunksOf_join (bs : Nat) (hbs : bs ≠ 0) :
    ∀ xs : List Tuple, (chunksOf bs xs).flatten = xs :=
  fun xs => chunksOfAux_join bs hbs xs.length xs le_rfl

theorem chunksOf_mem_subset (bs : Nat) (hbs : bs ≠ 0) (xs : List Tuple)
    (blk : List Tuple) (hblk : blk ∈ chunksOf bs xs) :
    ∀ x ∈ blk, x ∈ xs := by
  intro x hx
  have : x ∈ (chunksOf bs xs).flatten := List.mem_flatten.mpr ⟨blk, hblk, hx⟩
  rwa [chunksOf_join bs hbs xs] at this

theorem nljBlocks_eval (cond : Expr) (sch : Schema) (p : Tuple → Tuple → Bool)
    (rs : List Tuple) :
    ∀ blks : List (List Tuple),
    (∀ blk ∈ blks, ∀ l ∈ blk, ∀ r ∈ rs, evalBool cond (l ++ r) sch = .ok (p l r)) →
    nljBlocks cond sch rs blks =
      .ok (blks.flatten.flatMap (fun l => (rs.filter (p l)).map (fun r => l ++ r))) := by
  intro blks
  induction blks with
  | nil => intro _; rfl
  | cons blk blks ih =>
      intro h
      simp only [nljBlocks]
      rw [nljRun_eval cond sch p rs blk (fun l hl r hr => h blk (by simp) l hl r hr),
          ih (fun b hb l hl r hr => h b (by simp [hb]) l hl r hr)]
      simp [ok_bind]

theorem bnljRun_eval (cond : Expr) (sch : Schema) (p : Tuple → Tuple → Bool)
    (bs : Nat) (hbs : bs ≠ 0) (ls rs : List Tuple)
    (h : ∀ l ∈ ls, ∀ r ∈ rs, evalBool cond (l ++ r) sch = .ok (p l r)) :
    bnljRun cond sch bs ls rs =
      .ok (ls.flatMap (fun l => (rs.filter (p l)).map (fun r => l ++ r))) := by
  unfold bnljRun
  rw [nljBlocks_eval cond sch p rs (chunksOf bs ls)
    (fun blk hblk l hl r hr => h l (chunksOf_mem_subset bs hbs ls blk hblk l hl) r hr)]
  rw [chunksOf_join bs hbs ls]

theorem tableFind_insert (k0 k : Value) (t : Tuple) :
    ∀ tb : List (Value × List Tuple),
    tableFind (tableInsert tb k0 t) k =
      if k0 = k then tableFind tb k ++ [t] else tableFind tb k := by
  intro tb
  induction tb with
  | nil =>
      simp only [tableInsert, tableFind, valueBeq_eq_decide]
      by_cases h : k0 = k <;> simp [h]
  | cons e rest ih =>
      obtain ⟨k', b⟩ := e
      simp only [tableInsert, tableFind, valueBeq_eq_decide]
      by_cases h1 : k' = k0
      · subst h1
        by_cases h2 : k' = k <;> simp_all [tableFind, valueBeq_eq_decide]
      · by_cases h2 : k' = k
        · subst h2
          have hk : ¬ k0 = k' := fun hc => h1 hc.symm
          simp_all [tableFind, valueBeq_eq_decide]
        · simp_all [tableFind, valueBeq_eq_decide]

/-- The pure build table: fold every build tuple into its key's bucket. -/
def tableInsertAll (tb : List (Value × List Tuple)) (kf : Tuple → Value)
    (rs : List Tuple) : List (Value × List Tuple) :=
  rs.foldl (fun t r => tableInsert t (kf r) r) tb

theorem buildTableRun_eval (bk : Expr) (schB : Schema) (kf : Tuple → Value) :
    ∀ (rs : List Tuple) (tb : List (Value × List Tuple)),
    (∀ r ∈ rs, evalExpr bk r schB = .ok (kf r)) →
    buildTableRun bk schB rs tb = .ok (tableInsertAll tb kf rs) := by
  intro rs
  induction rs with
  | nil => intro tb _; rfl
  | cons r rs ih =>
      intro tb h
      simp only [buildTableRun]
      rw [h r (by simp)]
      simp only [ok_bind]
      rw [ih (tableInsert tb (kf r) r) (fun u hu => h u (by simp [hu]))]
      rfl

theorem tableFind_insertAll (kf : Tuple → Value) (k : Value) :
    ∀ (rs : List Tuple) (tb : List (Value × List Tuple)),
    tableFind (tableInsertAll tb kf rs) k =
      tableFind tb k ++ rs.filter (fun r => valueBeq (kf r) k) := by
  intro rs
  induction rs with
  | nil => intro tb; simp [tableInsertAll]
  | cons r rs ih =>
      intro tb
      have hstep : tableInsertAll tb kf (r :: rs) =
          tableInsertAll (tableInsert tb (kf r) r) kf rs := rfl
      rw [hstep, ih, tableFind_insert, List.filter_cons]
      by_cases h : kf r = k
      · simp [h, valueBeq_eq_decide]
      · simp [h, valueBeq_eq_decide]

theorem probeRun_eval (pk : Expr) (schP : Schema)
    (table : List (Value × List Tuple)) (pkf : Tuple → Value) :
    ∀ ls : List Tuple, (∀ l ∈ ls, evalExpr pk l schP = .ok (pkf l)) →
    probeRun pk schP table ls =
      .ok (ls.flatMap (fun l => (tableFind table (pkf l)).map (fun r => l ++ r))) := by
  intro ls
  induction ls with
  | nil => intro _; rfl
  | cons l ls ih =>
      intro h
      simp only [probeRun]
      rw [h l (by simp)]
      simp only [ok_bind]
      rw [ih (fun u hu => h u (by simp [hu]))]
      simp [ok_bind]

/-- A hash-join run equals the probe-major, bucket-ordered list of combined
tuples whose keys agree. -/
theorem hashRun_eval (pk bk : Expr) (schP schB : Schema)
    (pkf bkf : Tuple → Value) (ls rs : List Tuple)
    (h1 : ∀ l ∈ ls, evalExpr pk l schP = .ok (pkf l))
    (h2 : ∀ r ∈ rs, evalExpr bk r schB = .ok (bkf r)) :
    hashRun pk bk schP schB ls rs =
      .ok (ls.flatMap (fun l =>
        ((rs.filter (fun r => valueBeq (bkf r) (pkf l))).map (fun r => l ++ r)))) := by
  unfold hashRun
  rw [buildTableRun_eval bk schB bkf rs [] h2]
  simp only [ok_bind]
  rw [probeRun_eval pk schP (tableInsertAll [] bkf rs) pkf ls h1]
  have hfind : ∀ k, tableFind (tableInsertAll [] bkf rs) k =
      rs.filter (fun r => valueBeq (bkf r) k) := by
    intro k
    rw [tableFind_insertAll]
    simp [tableFind]
  simp only [hfind]

/- ### Pure list exchange lemmas for predicate pushdown -/

theorem filter_const_of_mem (g : Tuple → Bool) (c : Bool) :
    ∀ ms : List Tuple, (∀ m ∈ ms, g m = c) → ms.filter g = if c then ms else [] := by
  intro ms h
  cases c
  · have hif : (if (false : Bool) then ms else ([] : List Tuple)) = [] := by simp
    rw [hif, List.filter_eq_nil_iff]
    intro a ha
    simp [h a ha]
  · have hif : (if (true : Bool) then ms else ([] : List Tuple)) = ms := by simp
    rw [hif]
    exact List.filter_eq_self.mpr (fun a ha => by simp [h a ha])

/-- Filtering the joined stream by a predicate that depends only on the left
part equals joining the filtered left stream. -/
theorem filter_flatMap_left (ls rs : List Tuple) (pf g : Tuple → Bool)
    (cf : Tuple → Tuple → Bool)
    (hg : ∀ l ∈ ls, ∀ r ∈ rs, g (l ++ r) = pf l) :
    (ls.flatMap (fun l => (rs.filter (cf l)).map (fun r => l ++ r))).filter g =
      (ls.filter pf).flatMap (fun l => (rs.filter (cf l)).map (fun r => l ++ r)) := by
  induction ls with
  | nil => rfl
  | cons l ls ih =>
      simp only [List.flatMap_cons, List.filter_append, List.filter_cons]
      rw [ih (fun u hu r hr => hg u (by simp [hu]) r hr)]
      have hinner : ((rs.filter (cf l)).map (fun r => l ++ r)).filter g =
          if pf l then (rs.filter (cf l)).map (fun r => l ++ r) else [] := by
        apply filter_const_of_mem
        intro m hm
        obtain ⟨r, hr, hmr⟩ := List.mem_map.mp hm
        rw [← hmr]
        exact hg l (by simp) r (List.mem_of_mem_filter hr)
      rw [hinner]
      cases hpf : pf l <;> simp

/-- Filtering the joined stream by a predicate that depends only on the
right part equals joining against the filtered right stream. -/
theorem filter_flatMap_right (ls rs : List Tuple) (pf g : Tuple → Bool)
    (cf : Tuple → Tuple → Bool)
    (hg : ∀ l ∈ ls, ∀ r ∈ rs, g (l ++ r) = pf r) :
    (ls.flatMap (fun l => (rs.filter (cf l)).map (fun r => l ++ r))).filter g =
      ls.flatMap (fun l => ((rs.filter pf).filter (cf l)).map (fun r => l ++ r)) := by
  induction ls with
  | nil => rfl
  | cons l ls ih =>
      simp only [List.flatMap_cons, List.filter_append]
      rw [ih (fun u hu r hr => hg u (by simp [hu]) r hr)]
      congr 1
      rw [List.filter_map]
      have hcomp : ∀ r ∈ rs.filter (cf l),
          (g ∘ fun r => l ++ r) r = pf r := by
        intro r hr
        exact hg l (by simp) r (List.mem_of_mem_filter hr)
      rw [List.filter_congr hcomp]
      congr 1
      rw [List.filter_comm]

/- ### C2: the three joins agree on pure-equality conditions -/

/-- C2: for deterministic re-openable input streams (finite tuple lists,
re-delivered identically on each rescan) and a join condition that is a
pure equality between one key expression per side, nested-loop,
block-nested-loop and hash join all succeed and produce the same multiset
of combined tuples (they agree even as lists here, since all three emit in
probe-major order). -/
theorem nlj_bnlj_hash_join_same_multiset
    (pkE bkE : Expr) (schP schB : Schema) (pkf bkf : Tuple → Value)
    (ls rs : List Tuple)
    (h1 : ∀ l ∈ ls, evalExpr pkE l schP = .ok (pkf l))
    (h2 : ∀ r ∈ rs, evalExpr bkE r schB = .ok (bkf r))
    (h3 : ∀ l ∈ ls, ∀ r ∈ rs,
        evalBool (.binary "EQ" pkE bkE) (l ++ r) (Schema.merge schP schB) =
          .ok (valueBeq (pkf l) (bkf r))) :
    ∃ o1 o2 o3 : List Tuple,
      nljRun (.binary "EQ" pkE bkE) (Schema.merge schP schB) ls rs = .ok o1 ∧
      bnljRun (.binary "EQ" pkE bkE) (Schema.merge schP schB) 100 ls rs = .ok o2 ∧
      hashRun pkE bkE schP schB ls rs = .ok o3 ∧
      (o1 : Multiset Tuple) = (o2 : Multiset Tuple) ∧
      (o2 : Multiset Tuple) = (o3 : Multiset Tuple) := by
  have hnlj := nljRun_eval (.binary "EQ" pkE bkE) (Schema.merge schP schB)
    (fun l r => valueBeq (pkf l) (bkf r)) rs ls h3
  have hbnlj := bnljRun_eval (.binary "EQ" pkE bkE) (Schema.merge schP schB)
    (fun l r => valueBeq (pkf l) (bkf r)) 100 (by norm_num) ls rs h3
  have hhash := hashRun_eval pkE bkE schP schB pkf bkf ls rs h1 h2
  have hsym : (ls.flatMap (fun l =>
      ((rs.filter (fun r => valueBeq (bkf r) (pkf l))).map (fun r => l ++ r)))) =
      (ls.flatMap (fun l =>
        ((rs.filter (fun r => valueBeq (pkf l) (bkf r))).map (fun r => l ++ r)))) := by
    have : ∀ l : Tuple, (fun r => valueBeq (bkf r) (pkf l)) =
        (fun r => valueBeq (pkf l) (bkf r)) :=
      fun l => funext fun r => valueBeq_symm _ _
    simp only [this]
  rw [hsym] at hhash
  exact ⟨_, _, _, hnlj, hbnlj, hhash, rfl, rfl⟩

theorem flatMap_congr_mem {α β : Type _} :
    ∀ (xs : List α) (f g : α → List β), (∀ x ∈ xs, f x = g x) →
    xs.flatMap f = xs.flatMap g := by
  intro xs f g h
  induction xs with
  | nil => rfl
  | cons x xs ih =>
      simp only [List.flatMap_cons]
      rw [h x (by simp), ih (fun u hu => h u (by simp [hu]))]

theorem mem_joined (ls rs : List Tuple) (cf : Tuple → Tuple → Bool) (t : Tuple)
    (ht : t ∈ ls.flatMap (fun l => (rs.filter (cf l)).map (fun r => l ++ r))) :
    ∃ l r, l ∈ ls ∧ r ∈ rs ∧ t = l ++ r := by
  obtain ⟨l, hl, hmt⟩ := List.mem_flatMap.mp ht
  obtain ⟨r, hr, hrt⟩ := List.mem_map.mp hmt
  exact ⟨l, r, hl, List.mem_of_mem_filter hr, hrt.symm⟩

theorem isSubsetOf_nonempty {p s : List String} (h : isSubsetOf p s = true) :
    p ≠ [] := by
  intro hc
  rw [hc] at h
  simp [isSubsetOf] at h

theorem isSubsetOf_false_of_disj (p : List String) (s : List String)
    (hne : p ≠ []) (hdisj : ∀ c ∈ p, c ∉ s) : isSubsetOf p s = false := by
  unfold isSubsetOf
  cases p with
  | nil => exact absurd rfl hne
  | cons c p =>
      simp only [Bool.and_eq_false_iff]
      simp
      intro hc
      exact absurd hc (hdisj c (by simp))

/- ### C1: the predicate pushdown rewrite -/

/-- C1 (amended): for a Select-over-Join plan whose predicate column set is
non-empty, a subset of exactly one child schema's names, and disjoint from
the other child's names (so that the merged schema resolves every predicate
column to the side it was pushed to), and in which - when the original
method is hash - each column name referenced by either join-key expression
occurs in only one child's schema (so the degraded nested-loop condition
over the merged schema agrees with the hash join's per-side key
evaluation), the translated tree - Filter pushed below the join, the join
rebuilt as nested-loop or block-nested-loop, with hash degrading to
nested-loop - produces the same multiset of tuples as the un-rewritten
Filter-above-Join tree.  The remaining hypotheses only state that the
predicate, the join condition and (for hash) the key expressions evaluate
successfully on the streams, with the parser's key alignment succeeding in
one of its two branches; the agreement of the merged-schema condition with
per-side key equality is derived, not assumed. -/
theorem pushdown_same_multiset
    (csL csR : List (String × DataType)) (pred cond : Expr) (method : String)
    (ls rs : List Tuple) (pf : Tuple → Bool) (cf : Tuple → Tuple → Bool)
    (hlenL : ∀ l ∈ ls, l.length = csL.length)
    (hcond : ∀ l ∈ ls, ∀ r ∈ rs,
        evalBool cond (l ++ r) (Schema.merge (Schema.ofCols csL) (Schema.ofCols csR)) =
          .ok (cf l r))
    (hside :
      (isSubsetOf (collectColumnRefs pred) (schemaNames (Schema.ofCols csL)) = true ∧
       (∀ c ∈ collectColumnRefs pred, c ∉ csR.map (·.1)) ∧
       (∀ l ∈ ls, evalBool pred l (Schema.ofCols csL) = .ok (pf l)))
      ∨
      (isSubsetOf (collectColumnRefs pred) (schemaNames (Schema.ofCols csR)) = true ∧
       (∀ c ∈ collectColumnRefs pred, c ∉ csL.map (·.1)) ∧
       (∀ r ∈ rs, evalBool pred r (Schema.ofCols csR) = .ok (pf r))))
    (hhash : method = "hash" →
      ∃ (eL eR : Expr) (pkf bkf : Tuple → Value),
        cond = .binary "EQ" eL eR ∧
        (((isSubsetOf (collectColumnRefs eL) (schemaNames (Schema.ofCols csL)) &&
           isSubsetOf (collectColumnRefs eR) (schemaNames (Schema.ofCols csR))) = true ∧
          (∀ c ∈ collectColumnRefs eL, c ∉ csR.map (·.1)) ∧
          (∀ c ∈ collectColumnRefs eR, c ∉ csL.map (·.1)) ∧
          (∀ l ∈ ls, evalExpr eL l (Schema.ofCols csL) = .ok (pkf l)) ∧
          (∀ r ∈ rs, evalExpr eR r (Schema.ofCols csR) = .ok (bkf r)))
         ∨
         ((isSubsetOf (collectColumnRefs eR) (schemaNames (Schema.ofCols csL)) &&
           isSubsetOf (collectColumnRefs eL) (schemaNames (Schema.ofCols csR))) = true ∧
          (∀ c ∈ collectColumnRefs eR, c ∉ csR.map (·.1)) ∧
          (∀ c ∈ collectColumnRefs eL, c ∉ csL.map (·.1)) ∧
          (∀ l ∈ ls, evalExpr eR l (Schema.ofCols csL) = .ok (pkf l)) ∧
          (∀ r ∈ rs, evalExpr eL r (Schema.ofCols csR) = .ok (bkf r))))) :
    ∃ out1 out2 : List Tuple,
      translateSelectJoinRun pred cond method
        (Schema.ofCols csL) (Schema.ofCols csR) ls rs = .ok out1 ∧
      selectOverJoinRun pred cond method
        (Schema.ofCols csL) (Schema.ofCols csR) ls rs = .ok out2 ∧
      (out1 : Multiset Tuple) = (out2 : Multiset Tuple) := by
  have hmerge : Schema.merge (Schema.ofCols csL) (Schema.ofCols csR) =
      Schema.ofCols (csL ++ csR) := merge_ofCols csL csR
  -- Step A: whatever the method, the original join produces the canonical
  -- condition-filtered cross product.
  have hJ : parseJoinRun method cond (Schema.ofCols csL) (Schema.ofCols csR) ls rs =
      .ok (ls.flatMap (fun l => (rs.filter (cf l)).map (fun r => l ++ r))) := by
    by_cases hm : method = "hash"
    · obtain ⟨eL, eR, pkf, bkf, hcondEq, halign⟩ := hhash hm
      subst hcondEq
      unfold parseJoinRun
      rw [if_pos hm]
      dsimp only
      rw [if_pos rfl]
      rcases halign with ⟨ha, hdL, hdR, hkl, hkr⟩ | ⟨ha, hdL, hdR, hkl, hkr⟩
      · -- plan keys already aligned: probe key eL over left, build key eR
        -- over right; the merged-schema condition agrees with per-side key
        -- equality because neither key's names occur on the other side.
        have hcf : ∀ l ∈ ls, ∀ r ∈ rs, cf l r = valueBeq (pkf l) (bkf r) := by
          intro l hl r hr
          have hEL : evalExpr eL (l ++ r) (Schema.ofCols (csL ++ csR)) = .ok (pkf l) := by
            rw [evalExpr_append_left csL csR eL l r (hlenL l hl) hdL]
            exact hkl l hl
          have hER : evalExpr eR (l ++ r) (Schema.ofCols (csL ++ csR)) = .ok (bkf r) := by
            rw [evalExpr_append_right csL csR eR l r (hlenL l hl) hdR]
            exact hkr r hr
          have heq : evalBool (.binary "EQ" eL eR) (l ++ r)
              (Schema.merge (Schema.ofCols csL) (Schema.ofCols csR)) =
              .ok (valueBeq (pkf l) (bkf r)) := by
            unfold evalBool
            rw [hmerge]
            simp only [evalExpr, hEL, hER, ok_bind]
            rfl
          have h2 := hcond l hl r hr
          rw [heq] at h2
          injection h2 with h3
          exact h3.symm
        rw [if_pos ha]
        rw [hashRun_eval eL eR (Schema.ofCols csL) (Schema.ofCols csR) pkf bkf ls rs hkl hkr]
        congr 1
        apply flatMap_congr_mem
        intro l hl
        congr 1
        apply List.filter_congr
        intro r hr
        rw [hcf l hl r hr, valueBeq_symm]
      · -- plan keys swapped: the parser's first alignment check fails
        -- (eL references only right-side names, which are disjoint from the
        -- left schema) and the second succeeds, so probe key eR over left,
        -- build key eL over right.
        have hne : collectColumnRefs eL ≠ [] := by
          have ha2 := ha
          simp only [Bool.and_eq_true] at ha2
          exact isSubsetOf_nonempty ha2.2
        have hfalse : isSubsetOf (collectColumnRefs eL)
            (schemaNames (Schema.ofCols csL)) = false := by
          apply isSubsetOf_false_of_disj _ _ hne
          intro c hc
          rw [ofCols_names]
          exact hdR c hc
        have hcf : ∀ l ∈ ls, ∀ r ∈ rs, cf l r = valueBeq (pkf l) (bkf r) := by
          intro l hl r hr
          have hEL : evalExpr eR (l ++ r) (Schema.ofCols (csL ++ csR)) = .ok (pkf l) := by
            rw [evalExpr_append_left csL csR eR l r (hlenL l hl) hdL]
            exact hkl l hl
          have hER : evalExpr eL (l ++ r) (Schema.ofCols (csL ++ csR)) = .ok (bkf r) := by
            rw [evalExpr_append_right csL csR eL l r (hlenL l hl) hdR]
            exact hkr r hr
          have heq : evalBool (.binary "EQ" eL eR) (l ++ r)
              (Schema.merge (Schema.ofCols csL) (Schema.ofCols csR)) =
              .ok (valueBeq (bkf r) (pkf l)) := by
            unfold evalBool
            rw [hmerge]
            simp only [evalExpr, hEL, hER, ok_bind]
            rfl
          have h2 := hcond l hl r hr
          rw [heq] at h2
          injection h2 with h3
          rw [← h3]
          exact valueBeq_symm _ _
        rw [if_neg (by simp [hfalse]), if_pos ha]
        rw [hashRun_eval eR eL (Schema.ofCols csL) (Schema.ofCols csR) pkf bkf ls rs hkl hkr]
        congr 1
        apply flatMap_congr_mem
        intro l hl
        congr 1
        apply List.filter_congr
        intro r hr
        rw [hcf l hl r hr, valueBeq_symm]
    · unfold parseJoinRun
      rw [if_neg hm]
      by_cases hb : method = "block_nested_loop"
      · rw [if_pos hb]
        exact bnljRun_eval cond _ cf 100 (by norm_num) ls rs hcond
      · rw [if_neg hb]
        exact nljRun_eval cond _ cf rs ls hcond
  rcases hside with ⟨hsubL, hdisjR, hpred⟩ | ⟨hsubR, hdisjL, hpred⟩
  · -- predicate pushed to the left child
    refine ⟨(ls.filter pf).flatMap (fun l => (rs.filter (cf l)).map (fun r => l ++ r)),
            (ls.flatMap (fun l => (rs.filter (cf l)).map (fun r => l ++ r))).filter
              (fun t => pf (t.take csL.length)), ?_, ?_, ?_⟩
    · unfold translateSelectJoinRun
      rw [if_pos hsubL, filterRun_eval pred (Schema.ofCols csL) pf ls hpred]
      simp only [ok_bind]
      by_cases hb : method = "block_nested_loop"
      · rw [if_pos hb]
        exact bnljRun_eval cond _ cf 100 (by norm_num) (ls.filter pf) rs
          (fun l hl r hr => hcond l (List.mem_of_mem_filter hl) r hr)
      · rw [if_neg hb]
        exact nljRun_eval cond _ cf rs (ls.filter pf)
          (fun l hl r hr => hcond l (List.mem_of_mem_filter hl) r hr)
    · unfold selectOverJoinRun
      rw [hJ]
      simp only [ok_bind]
      exact filterRun_eval pred _ (fun t => pf (t.take csL.length)) _ (by
        intro t ht
        obtain ⟨l, r, hl, hr, hteq⟩ := mem_joined ls rs cf t ht
        subst hteq
        show evalBool pred (l ++ r) _ = .ok (pf ((l ++ r).take csL.length))
        have htake : (l ++ r).take csL.length = l := by
          rw [← hlenL l hl]
          exact List.take_left l r
        rw [htake]
        have heval : evalExpr pred (l ++ r)
            (Schema.merge (Schema.ofCols csL) (Schema.ofCols csR)) =
            evalExpr pred l (Schema.ofCols csL) := by
          rw [hmerge]
          exact evalExpr_append_left csL csR pred l r (hlenL l hl) hdisjR
        unfold evalBool at hpred ⊢
        rw [heval]
        exact hpred l hl)
    · rw [filter_flatMap_left ls rs pf (fun t => pf (t.take csL.length)) cf (by
        intro l hl r hr
        show pf ((l ++ r).take csL.length) = pf l
        rw [← hlenL l hl, List.take_left])]
  · -- predicate pushed to the right child
    have hne : collectColumnRefs pred ≠ [] := isSubsetOf_nonempty hsubR
    have hsubLfalse :
        isSubsetOf (collectColumnRefs pred) (schemaNames (Schema.ofCols csL)) = false := by
      apply isSubsetOf_false_of_disj _ _ hne
      intro c hc
      rw [ofCols_names]
      exact hdisjL c hc
    refine ⟨ls.flatMap (fun l => ((rs.filter pf).filter (cf l)).map (fun r => l ++ r)),
            (ls.flatMap (fun l => (rs.filter (cf l)).map (fun r => l ++ r))).filter
              (fun t => pf (t.drop csL.length)), ?_, ?_, ?_⟩
    · unfold translateSelectJoinRun
      rw [if_neg (by simp [hsubLfalse]), if_pos hsubR,
          filterRun_eval pred (Schema.ofCols csR) pf rs hpred]
      simp only [ok_bind]
      by_cases hb : method = "block_nested_loop"
      · rw [if_pos hb]
        exact bnljRun_eval cond _ cf 100 (by norm_num) ls (rs.filter pf)
          (fun l hl r hr => hcond l hl r (List.mem_of_mem_filter hr))
      · rw [if_neg hb]
        exact nljRun_eval cond _ cf (rs.filter pf) ls
          (fun l hl r hr => hcond l hl r (List.mem_of_mem_filter hr))
    · unfold selectOverJoinRun
      rw [hJ]
      simp only [ok_bind]
      exact filterRun_eval pred _ (fun t => pf (t.drop csL.length)) _ (by
        intro t ht
        obtain ⟨l, r, hl, hr, hteq⟩ := mem_joined ls rs cf t ht
        subst hteq
        show evalBool pred (l ++ r) _ = .ok (pf ((l ++ r).drop csL.length))
        have hdrop : (l ++ r).drop csL.length = r := by
          rw [← hlenL l hl]
          exact List.drop_left l r
        rw [hdrop]
        have heval : evalExpr pred (l ++ r)
            (Schema.merge (Schema.ofCols csL) (Schema.ofCols csR)) =
            evalExpr pred r (Schema.ofCols csR) := by
          rw [hmerge]
          exact evalExpr_append_right csL csR pred l r (hlenL l hl) hdisjL
        unfold evalBool at hpred ⊢
        rw [heval]
        exact hpred r hr)
    · rw [filter_flatMap_right ls rs pf (fun t => pf (t.drop csL.length)) cf (by
        intro l hl r hr
        show pf ((l ++ r).drop csL.length) = pf r
        rw [← hlenL l hl, List.drop_left])]

/- ### C3: EQ/NEQ semantics -/

/-- C3 counterexample: comparing an int against a string with EQ does not
fail with a type error - `std::variant` equality simply reports the
variants unequal, so EQ yields boolean false (and NEQ boolean true). -/
theorem eq_mixed_variant_no_error :
    evalExpr (.binary "EQ" (.const (.vint 1)) (.const (.vstr "a"))) [] Schema.empty =
      .ok (.vbool false) ∧
    evalExpr (.binary "NEQ" (.const (.vint 1)) (.const (.vstr "a"))) [] Schema.empty =
      .ok (.vbool true) :=
  ⟨rfl, rfl⟩

/-- C3 (amended): Binary EQ/NEQ never raise a type error.  When both
operands evaluate, EQ returns a boolean Value holding `std::variant`
equality: operands of different variants compare unequal (EQ false, NEQ
true), and operands of the same variant compare by value. -/
theorem eq_neq_variant_semantics (A B : Expr) (t : Tuple) (s : Schema)
    (va vb : Value)
    (hA : evalExpr A t s = .ok va) (hB : evalExpr B t s = .ok vb) :
    evalExpr (.binary "EQ" A B) t s = .ok (.vbool (valueBeq va vb)) ∧
    evalExpr (.binary "NEQ" A B) t s = .ok (.vbool (! valueBeq va vb)) ∧
    (variantTag va ≠ variantTag vb → valueBeq va vb = false) ∧
    (valueBeq va vb = true ↔ va = vb) := by
  refine ⟨?_, ?_, ?_, valueBeq_eq_true_iff va vb⟩
  · simp only [evalExpr, hA, hB, ok_bind]
    rfl
  · simp only [evalExpr, hA, hB, ok_bind]
    rfl
  · intro h
    cases va <;> cases vb <;> simp_all [valueBeq, variantTag]

theorem eq_neq_variant_semantics_witness :
    evalExpr (.binary "EQ" (.const (.vint 2)) (.const (.vint 2))) [] Schema.empty =
      .ok (.vbool (valueBeq (.vint 2) (.vint 2))) ∧
    evalExpr (.binary "NEQ" (.const (.vint 2)) (.const (.vint 2))) [] Schema.empty =
      .ok (.vbool (! valueBeq (.vint 2) (.vint 2))) ∧
    (variantTag (Value.vint 2) ≠ variantTag (Value.vint 2) →
      valueBeq (.vint 2) (.vint 2) = false) ∧
    (valueBeq (.vint 2) (.vint 2) = true ↔ (Value.vint 2) = (Value.vint 2)) :=
  eq_neq_variant_semantics (.const (.vint 2)) (.const (.vint 2)) [] Schema.empty
    (.vint 2) (.vint 2) rfl rfl

/- ### C4: Project output-column type inference -/

/-- C4 counterexample: a projected ColumnRef does not copy the referenced
column's type from the input schema - the ColumnRef branch of the
ProjectOperator constructor is an empty body, so the column stays STRING;
likewise a Constant projection stays STRING rather than taking the
constant's variant. -/
theorem project_type_counterexample :
    (projectSchema [("x", Expr.col "a")]).getColumn "x" =
      .ok ⟨"x", DataType.STRING, 0⟩ ∧
    (Schema.ofCols [("a", DataType.INT)]).getColumn "a" =
      .ok ⟨"a", DataType.INT, 0⟩ ∧
    DataType.STRING ≠ DataType.INT ∧
    (projectSchema [("y", Expr.const (Value.vint 3))]).getColumn "y" =
      .ok ⟨"y", DataType.STRING, 0⟩ := by
  refine ⟨by decide, by decide, by decide, by decide⟩

/-- C4 (amended): each Project output column's declared type is FLOAT when
its expression is a Binary node and STRING otherwise - including ColumnRef
(the type copy from the input schema is dead code) and Constant. -/
theorem project_schema_types (exprs : List (String × Expr)) :
    (projectSchema exprs).cols.map colProj =
      exprs.map (fun p => (p.1, inferProjType p.2)) ∧
    (∀ (op : String) (l r : Expr), inferProjType (.binary op l r) = .FLOAT) ∧
    (∀ n : String, inferProjType (.col n) = .STRING) ∧
    (∀ v : Value, inferProjType (.const v) = .STRING) ∧
    (∀ e : Expr, inferProjType (.enot e) = .STRING) := by
  refine ⟨?_, fun _ _ _ => rfl, fun _ => rfl, fun _ => rfl, fun _ => rfl⟩
  have heq : projectSchema exprs =
      addAll Schema.empty (exprs.map (fun p => (p.1, inferProjType p.2))) := by
    unfold projectSchema addAll
    rw [List.foldl_map]
  rw [heq]
  have := addAll_cols_proj (exprs.map (fun p => (p.1, inferProjType p.2))) Schema.empty
  simpa [Schema.empty] using this

/- ### C9: duplicate names in a schema resolve to the most recent addition -/

/-- C9: after `addColumn`, the ordered column list retains every occurrence
(the new ColumnInfo is appended), while the name-to-index map used by
`getColumn` resolves the added name to the new (most recently added)
occurrence and leaves every other name's resolution unchanged - so
ColumnRef evaluation against a merged schema with colliding names reads the
most recently added occurrence. -/
theorem schema_lookup_most_recent (s : Schema) (n : String) (ty : DataType) :
    (s.addColumn n ty).getColumns =
      s.getColumns ++ [⟨n, ty, s.cols.length⟩] ∧
    (s.addColumn n ty).getColumn n = .ok ⟨n, ty, s.cols.length⟩ ∧
    (∀ m : String, m ≠ n → (s.addColumn n ty).lookupIndex m = s.lookupIndex m) := by
  refine ⟨rfl, ?_, ?_⟩
  · unfold Schema.getColumn
    rw [addColumn_lookupIndex, if_pos (by simp : ((n == n) = true))]
    dsimp only
    have : (s.addColumn n ty).cols[s.cols.length]? =
        some ⟨n, ty, s.cols.length⟩ := by
      simp [Schema.addColumn, List.getElem?_concat_length]
    rw [this]
  · intro m hm
    rw [addColumn_lookupIndex, if_neg (by simpa using hm)]

theorem schema_lookup_most_recent_witness :
    ((Schema.ofCols [("a", DataType.INT)]).addColumn "a" DataType.FLOAT).getColumns =
      (Schema.ofCols [("a", DataType.INT)]).getColumns ++
        [⟨"a", DataType.FLOAT, (Schema.ofCols [("a", DataType.INT)]).cols.length⟩] ∧
    ((Schema.ofCols [("a", DataType.INT)]).addColumn "a" DataType.FLOAT).getColumn "a" =
      .ok ⟨"a", DataType.FLOAT, (Schema.ofCols [("a", DataType.INT)]).cols.length⟩ ∧
    ((Schema.ofCols [("a", DataType.INT)]).addColumn "a" DataType.FLOAT).lookupIndex "b" =
      (Schema.ofCols [("a", DataType.INT)]).lookupIndex "b" :=
  have h := schema_lookup_most_recent (Schema.ofCols [("a", DataType.INT)]) "a" DataType.FLOAT
  ⟨h.1, h.2.1, h.2.2 "b" (by decide)⟩

/- ### C10: opening an already-open Scan is a no-op -/

/-- C10: `ScanOperator::open` on an already-open stream returns immediately:
the state (and hence the read position) is unchanged, the header is not
re-skipped, and the subsequent `next` continues from the preserved
position; the reset to position 1 (just past the header) happens exactly
when open follows a close. -/
theorem scan_open_noop (fuel : Nat) (lines : List String) (sch : Schema)
    (pos : Nat) (b : Bool) :
    openOp (fuel + 1) (.scan lines sch) (.scanSt true pos) =
      .ok (.scanSt true pos) ∧
    openOp (fuel + 1) (.scan lines sch)
      (closeOp (.scan lines sch) (.scanSt b pos)) = .ok (.scanSt true 1) ∧
    nextOp (fuel + 1) (.scan lines sch) (.scanSt true pos) =
      (match (scanNextFrom sch lines pos).2 with
       | .ok (res, pos') => .ok (res, .scanSt true pos')
       | .error e => .error e) :=
  ⟨rfl, rfl, rfl⟩

/- ### C6: Limit semantics (LimitOperator, src/operator.h:203-229).

The child of the Limit is abstracted as its deterministic stream of
remaining tuples; `limitNext` mirrors `LimitOperator::next` and also
reports whether the child's `next` was invoked. -/

structure LimitSt where
  count : Int
  child : List Tuple
deriving DecidableEq, Repr

/-- `LimitOperator::open`: opens the child (its stream is reset to the full
list) and zeroes the counter. -/
def limitOpen (child : List Tuple) : LimitSt := ⟨0, child⟩

/-- `LimitOperator::next`: once the counter has reached the limit, return
false without touching the child; otherwise pull the child and count any
produced tuple.  The Bool reports whether the child's next was invoked. -/
def limitNext (k : Int) (s : LimitSt) : Option Tuple × LimitSt × Bool :=
  if s.count ≥ k then (none, s, false)
  else
    match s.child with
    | [] => (none, s, true)
    | t :: ts => (some t, ⟨s.count + 1, ts⟩, true)

/-- Iterating `limitNext` to exhaustion (structurally, on the remaining
child stream). -/
def limitRunAux (k count : Int) : List Tuple → List Tuple
  | [] => []
  | t :: ts => if count ≥ k then [] else t :: limitRunAux k (count + 1) ts

def limitRun (k : Int) (s : LimitSt) : List Tuple :=
  limitRunAux k s.count s.child

/-- `limitRun` is exactly the iteration of `limitNext`. -/
theorem limitRun_step (k : Int) (s : LimitSt) :
    limitRun k s =
      match limitNext k s with
      | (none, _, _) => []
      | (some t, s', _) => t :: limitRun k s' := by
  unfold limitRun limitNext
  obtain ⟨c, ch⟩ := s
  cases ch with
  | nil =>
      by_cases h : c ≥ k
      · simp [limitRunAux, h]
      · simp [limitRunAux, h]
  | cons t ts =>
      by_cases h : c ≥ k
      · simp [limitRunAux, h]
      · simp [limitRunAux, h]

theorem limitRunAux_take (k : Int) :
    ∀ (ts : List Tuple) (c : Int), limitRunAux k c ts = ts.take (k - c).toNat := by
  intro ts
  induction ts with
  | nil => intro c; simp [limitRunAux]
  | cons t ts ih =>
      intro c
      simp only [limitRunAux]
      by_cases h : c ≥ k
      · rw [if_pos h]
        have : (k - c).toNat = 0 := by omega
        rw [this]
        rfl
      · rw [if_neg h, ih (c + 1)]
        have : (k - c).toNat = (k - (c + 1)).toNat + 1 := by omega
        rw [this]
        rfl

/-- C6 counterexample: a Limit with the (representable) limit -1 yields no
tuples even over a non-empty child, so "exactly min(k, n) tuples" fails for
negative k: min(-1, 1) = -1 but 0 tuples are produced. -/
theorem limit_min_counterexample :
    limitRun (-1) (limitOpen [[Value.vint 0]]) = [] ∧
    ¬ (((limitRun (-1) (limitOpen [[Value.vint 0]])).length : Int) =
        min (-1) ((([[Value.vint 0]] : List Tuple)).length : Int)) := by
  refine ⟨rfl, by decide⟩

/-- C6 (amended): after `open`, iterating next yields exactly
min(max(k,0), n) tuples (the first min(max(k,0), n) of the child); once the
counter has reached the limit, every next returns false without invoking
the child and leaves the state unchanged; and `open` resets the counter to
zero. -/
theorem limit_produces_clamped_min (k : Int) (cs : List Tuple) :
    ((limitRun k (limitOpen cs)).length : Int) =
      min (max k 0) (cs.length : Int) ∧
    limitRun k (limitOpen cs) = cs.take k.toNat ∧
    (∀ s : LimitSt, k ≤ s.count → limitNext k s = (none, s, false)) ∧
    (limitOpen cs).count = 0 := by
  have htake : limitRun k (limitOpen cs) = cs.take k.toNat := by
    unfold limitRun limitOpen
    rw [limitRunAux_take]
    simp
  refine ⟨?_, htake, ?_, rfl⟩
  · rw [htake]
    rw [List.length_take]
    have hcast : ((min k.toNat cs.length : Nat) : Int) =
        min (k.toNat : Int) (cs.length : Int) := by
      simp [Nat.cast_min]
    rw [hcast]
    congr 1
    omega
  · intro s hk
    unfold limitNext
    rw [if_pos (by omega)]

theorem limit_produces_clamped_min_witness :
    ((limitRun 2 (limitOpen [[Value.vint 5], [Value.vint 6], [Value.vint 7]])).length : Int) =
      min (max 2 0) ((([[Value.vint 5], [Value.vint 6], [Value.vint 7]] : List Tuple)).length : Int) ∧
    limitRun 2 (limitOpen [[Value.vint 5], [Value.vint 6], [Value.vint 7]]) =
      ([[Value.vint 5], [Value.vint 6], [Value.vint 7]] : List Tuple).take (Int.toNat 2) ∧
    limitNext 2 ⟨2, [[Value.vint 9]]⟩ = (none, ⟨2, [[Value.vint 9]]⟩, false) ∧
    (limitOpen [[Value.vint 5], [Value.vint 6], [Value.vint 7]]).count = 0 :=
  have h := limit_produces_clamped_min 2 [[Value.vint 5], [Value.vint 6], [Value.vint 7]]
  ⟨h.1, h.2.1, h.2.2.1 ⟨2, [[Value.vint 9]]⟩ (by decide), h.2.2.2⟩

/- ### C8: Scan's parse-failure handling -/

/-- C8 counterexample: an INT field above the 32-bit range fails to parse
with `std::out_of_range`, which `ScanOperator::next` does not catch (only
`std::invalid_argument` is caught), so this parse failure aborts the query
instead of producing a warning and skipping the row. -/
theorem scan_out_of_range_aborts :
    stoiModel "2147483648" = .error .range ∧
    parseRow (Schema.ofCols [("a", DataType.INT)]) "2147483648" =
      .error .fatal ∧
    scanNextFrom (Schema.ofCols [("a", DataType.INT)]) ["h", "2147483648"] 1 =
      ([], .error .outOfRange) := by
  refine ⟨by decide, by decide, by decide⟩

/-- C8 (amended): a data row whose INT/FLOAT field has no parseable numeric
prefix (`std::invalid_argument`) makes `next` emit one warning naming the
field and column, skip the entire row, and recurse to the next row; a row
that parses cleanly is produced as a tuple; `next` returns false exactly at
end of file; but an out-of-range numeric literal raises an uncaught error
that aborts the query. -/
theorem scan_next_skip_semantics (sch : Schema) (lines : List String) (pos : Nat) :
    (∀ (h : pos < lines.length) (t : Tuple),
        parseRow sch (lines.get ⟨pos, h⟩) = .ok t →
        scanNextFrom sch lines pos = ([], .ok (some t, pos + 1))) ∧
    (∀ (h : pos < lines.length) (f c : String),
        parseRow sch (lines.get ⟨pos, h⟩) = .error (.skip f c) →
        scanNextFrom sch lines pos =
          ((f, c) :: (scanNextFrom sch lines (pos + 1)).1,
           (scanNextFrom sch lines (pos + 1)).2)) ∧
    (∀ (h : pos < lines.length),
        parseRow sch (lines.get ⟨pos, h⟩) = .error .fatal →
        scanNextFrom sch lines pos = ([], .error .outOfRange)) ∧
    (lines.length ≤ pos → scanNextFrom sch lines pos = ([], .ok (none, pos))) := by
  refine ⟨?_, ?_, ?_, ?_⟩
  · intro h t hp
    unfold scanNextFrom
    rw [List.drop_eq_getElem_cons h]
    simp only [scanNextAux, show lines[pos] = lines.get ⟨pos, h⟩ from rfl, hp]
  · intro h f c hp
    unfold scanNextFrom
    rw [List.drop_eq_getElem_cons h]
    simp only [scanNextAux, show lines[pos] = lines.get ⟨pos, h⟩ from rfl, hp]
    cases hr : (scanNextAux sch (lines.drop (pos + 1))).2 with
    | ok pr =>
        obtain ⟨res, d⟩ := pr
        simp [scanNextFrom, hr, Nat.add_assoc, Nat.add_comm, Nat.add_left_comm]
    | error e => simp [scanNextFrom, hr]
  · intro h hp
    unfold scanNextFrom
    rw [List.drop_eq_getElem_cons h]
    simp only [scanNextAux, show lines[pos] = lines.get ⟨pos, h⟩ from rfl, hp]
  · intro h
    unfold scanNextFrom
    rw [List.drop_eq_nil_of_le h]
    simp [scanNextAux]

theorem scan_next_skip_semantics_witness :
    scanNextFrom (Schema.ofCols [("a", DataType.INT)]) ["h", "x", "5"] 1 =
      (("x", "a") :: (scanNextFrom (Schema.ofCols [("a", DataType.INT)]) ["h", "x", "5"] 2).1,
       (scanNextFrom (Schema.ofCols [("a", DataType.INT)]) ["h", "x", "5"] 2).2) :=
  (scan_next_skip_semantics (Schema.ofCols [("a", DataType.INT)]) ["h", "x", "5"] 1).2.1
    (by decide) "x" "a" (by decide)

/- ### C5: what close releases -/

/-- C5 counterexample: `HashJoinOperator::close` only closes the probe
child; the hash table (here holding one bucket) is retained unchanged in
the closed operator, contradicting "after close() the operator retains no
hash-table contents". -/
theorem hash_close_retains_table :
    closeOp
      (Op.hjoin (.col "a") (.col "b")
        (.scan ["h"] (Schema.ofCols [("a", DataType.INT)]))
        (.scan ["h"] (Schema.ofCols [("b", DataType.INT)])))
      (.hjoinSt [(Value.vint 1, [[Value.vint 1]])] none
        (.scanSt false 1) (.scanSt false 1)) =
      .hjoinSt [(Value.vint 1, [[Value.vint 1]])] none
        (.scanSt false 1) (.scanSt false 1) ∧
    ([(Value.vint 1, [[Value.vint 1]])] : List (Value × List Tuple)) ≠ [] := by
  refine ⟨rfl, by decide⟩

/-- C5 (amended): after `close`, every file handle in the tree is released
(every scan stream is closed, given the reachable-state invariant that hash
build subtrees are already closed), but buffered contents are retained by
`close` itself: the hash join's table and current-match state, and the
block nested-loop join's buffered block and index, survive close unchanged
(they are only cleared/rebuilt by the next open); a scan's close drops the
stream while keeping the dead position value. -/
theorem close_releases_handles_not_buffers :
    (∀ (op : Op) (s : OpState op), Inv op s = true →
        scansClosed op (closeOp op s) = true) ∧
    (∀ (pk bk : Expr) (p b : Op) (table : List (Value × List Tuple))
        (cur : Option (Tuple × List Tuple)) (ps : OpState p) (bs : OpState b),
        closeOp (.hjoin pk bk p b) (.hjoinSt table cur ps bs) =
          .hjoinSt table cur (closeOp p ps) bs) ∧
    (∀ (cond : Expr) (bsz : Nat) (l r : Op) (blk : List Tuple) (idx : Nat)
        (ls : OpState l) (rs : OpState r),
        closeOp (.bnlj cond bsz l r) (.bnljSt blk idx ls rs) =
          .bnljSt blk idx (closeOp l ls) (closeOp r rs)) ∧
    (∀ (lines : List String) (sch : Schema) (b : Bool) (pos : Nat),
        closeOp (.scan lines sch) (.scanSt b pos) = .scanSt false pos) :=
  ⟨scansClosed_closeOp, fun _ _ _ _ _ _ _ _ => rfl,
   fun _ _ _ _ _ _ _ _ => rfl, fun _ _ _ _ => rfl⟩

theorem close_releases_handles_not_buffers_witness :
    scansClosed (Op.scan ["h", "1"] (Schema.ofCols [("a", DataType.INT)]))
      (closeOp (Op.scan ["h", "1"] (Schema.ofCols [("a", DataType.INT)]))
        (.scanSt true 2)) = true :=
  close_releases_handles_not_buffers.1
    (Op.scan ["h", "1"] (Schema.ofCols [("a", DataType.INT)]))
    (.scanSt true 2) (by decide)

/- ### C7: close/open re-runs produce the identical sequence -/

/-- C7: for any operator tree, running the root to exhaustion from a fresh
open, then `close`, then `open`, and iterating again yields the identical
tuple sequence: the close/open cycle restores exactly the state the first
open produced (scan positions re-skipped to just past the header, limit
counters zeroed, hash tables rebuilt, block windows reloaded). -/
theorem reopen_identical_sequence (g f : Nat) (op : Op) (s0 s0' : OpState op)
    (out1 out2 : List Tuple) (s1 s2 : OpState op)
    (hopen1 : openOp g op (initState op) = .ok s0)
    (hrun1 : collectOp f op s0 = .ok (out1, s1))
    (hopen2 : openOp g op (closeOp op s1) = .ok s0')
    (hrun2 : collectOp f op s0' = .ok (out2, s2)) :
    out2 = out1 := by
  have h0 := open_after_close_run g f op s0 out1 s1 hopen1 hrun1
  rw [h0] at hopen2
  have hs : s0' = s0 := by
    injection hopen2 with h
    exact h.symm
  subst hs
  rw [hrun1] at hrun2
  injection hrun2 with h2
  exact (congrArg Prod.fst h2).symm

theorem reopen_identical_sequence_witness :
    ([[Value.vint 1]] : List Tuple) = [[Value.vint 1]] :=
  reopen_identical_sequence 5 5
    (Op.limit 1 (Op.scan ["h", "1", "2"] (Schema.ofCols [("a", DataType.INT)])))
    (.limitSt 0 (.scanSt true 1)) (.limitSt 0 (.scanSt true 1))
    [[Value.vint 1]] [[Value.vint 1]]
    (.limitSt 1 (.scanSt true 2)) (.limitSt 1 (.scanSt true 2))
    (by decide) (by decide) (by decide) (by decide)

/-- C1 counterexample: cross-side column-name collisions break the claim
as stated, in two ways.

First (predicate collision): the predicate EQ(a, c) references {a, c}, a
subset of exactly the left schema {a, c} (c is absent on the right), yet
"a" also exists in the right schema {a, b}; the merged schema resolves "a"
to the right side's occurrence, so the un-rewritten Filter-above-Join sees
a=2 and emits nothing while the pushed-down tree filters the left tuple
with a=1 and emits the joined row - different multisets.

Second (join-key collision, hash method): with predicate GT(c, 0) - whose
referenced names are non-empty, a subset of exactly the left schema, and
entirely absent from the right schema - and hash-join condition EQ(a, a),
the un-rewritten hash join evaluates each key against its own child's
schema (left a=1 vs build a=2: no match, so the Filter-above-Join emits
nothing), while the pushed-down tree degrades the join to nested-loop and
evaluates EQ(a, a) over the merged schema, where both lookups resolve to
the right side's "a" (a tautology), emitting the joined row - different
multisets even though every predicate-side condition of the claim holds. -/
theorem pushdown_claim_counterexample :
    isSubsetOf (collectColumnRefs (Expr.binary "EQ" (.col "a") (.col "c")))
      (schemaNames (Schema.ofCols [("a", DataType.INT), ("c", DataType.INT)])) = true ∧
    isSubsetOf (collectColumnRefs (Expr.binary "EQ" (.col "a") (.col "c")))
      (schemaNames (Schema.ofCols [("a", DataType.INT), ("b", DataType.INT)])) = false ∧
    translateSelectJoinRun (Expr.binary "EQ" (.col "a") (.col "c"))
      (Expr.binary "EQ" (.const (.vint 1)) (.const (.vint 1))) "nested_loop"
      (Schema.ofCols [("a", DataType.INT), ("c", DataType.INT)])
      (Schema.ofCols [("a", DataType.INT), ("b", DataType.INT)])
      [[Value.vint 1, Value.vint 1]] [[Value.vint 2, Value.vint 7]] =
      .ok [[Value.vint 1, Value.vint 1, Value.vint 2, Value.vint 7]] ∧
    selectOverJoinRun (Expr.binary "EQ" (.col "a") (.col "c"))
      (Expr.binary "EQ" (.const (.vint 1)) (.const (.vint 1))) "nested_loop"
      (Schema.ofCols [("a", DataType.INT), ("c", DataType.INT)])
      (Schema.ofCols [("a", DataType.INT), ("b", DataType.INT)])
      [[Value.vint 1, Value.vint 1]] [[Value.vint 2, Value.vint 7]] = .ok [] ∧
    ¬ (([[Value.vint 1, Value.vint 1, Value.vint 2, Value.vint 7]] : Multiset Tuple) =
        (([] : List Tuple) : Multiset Tuple)) ∧
    isSubsetOf (collectColumnRefs (Expr.binary "GT" (.col "c") (.const (.vint 0))))
      (schemaNames (Schema.ofCols [("a", DataType.INT), ("c", DataType.INT)])) = true ∧
    isSubsetOf (collectColumnRefs (Expr.binary "GT" (.col "c") (.const (.vint 0))))
      (schemaNames (Schema.ofCols [("a", DataType.INT), ("b", DataType.INT)])) = false ∧
    (collectColumnRefs (Expr.binary "GT" (.col "c") (.const (.vint 0)))).all
      (fun cc => ! ((["a", "b"] : List String).contains cc)) = true ∧
    translateSelectJoinRun (Expr.binary "GT" (.col "c") (.const (.vint 0)))
      (Expr.binary "EQ" (.col "a") (.col "a")) "hash"
      (Schema.ofCols [("a", DataType.INT), ("c", DataType.INT)])
      (Schema.ofCols [("a", DataType.INT), ("b", DataType.INT)])
      [[Value.vint 1, Value.vint 5]] [[Value.vint 2, Value.vint 9]] =
      .ok [[Value.vint 1, Value.vint 5, Value.vint 2, Value.vint 9]] ∧
    selectOverJoinRun (Expr.binary "GT" (.col "c") (.const (.vint 0)))
      (Expr.binary "EQ" (.col "a") (.col "a")) "hash"
      (Schema.ofCols [("a", DataType.INT), ("c", DataType.INT)])
      (Schema.ofCols [("a", DataType.INT), ("b", DataType.INT)])
      [[Value.vint 1, Value.vint 5]] [[Value.vint 2, Value.vint 9]] = .ok [] ∧
    ¬ (([[Value.vint 1, Value.vint 5, Value.vint 2, Value.vint 9]] : Multiset Tuple) =
        (([] : List Tuple) : Multiset Tuple)) := by
  refine ⟨by decide, by decide, by decide, by decide, by decide,
          by decide, by decide, by decide, by decide, by decide, by decide⟩

theorem pushdown_same_multiset_witness :
    ∃ out1 out2 : List Tuple,
      translateSelectJoinRun (Expr.binary "EQ" (.col "a") (.const (.vint 1)))
        (Expr.binary "EQ" (.col "a") (.col "b")) "hash"
        (Schema.ofCols [("a", DataType.INT)]) (Schema.ofCols [("b", DataType.INT)])
        [[Value.vint 1], [Value.vint 2]] [[Value.vint 1]] = .ok out1 ∧
      selectOverJoinRun (Expr.binary "EQ" (.col "a") (.const (.vint 1)))
        (Expr.binary "EQ" (.col "a") (.col "b")) "hash"
        (Schema.ofCols [("a", DataType.INT)]) (Schema.ofCols [("b", DataType.INT)])
        [[Value.vint 1], [Value.vint 2]] [[Value.vint 1]] = .ok out2 ∧
      (out1 : Multiset Tuple) = (out2 : Multiset Tuple) :=
  pushdown_same_multiset [("a", DataType.INT)] [("b", DataType.INT)]
    (Expr.binary "EQ" (.col "a") (.const (.vint 1)))
    (Expr.binary "EQ" (.col "a") (.col "b")) "hash"
    [[Value.vint 1], [Value.vint 2]] [[Value.vint 1]]
    (fun l => valueBeq (l.getD 0 (.vint 0)) (.vint 1))
    (fun l r => valueBeq (l.getD 0 (.vint 0)) (r.getD 0 (.vint 0)))
    (by decide) (by decide)
    (Or.inl ⟨by decide, by decide, by decide⟩)
    (fun _ => ⟨Expr.col "a", Expr.col "b",
      fun l => l.getD 0 (Value.vint 0), fun r => r.getD 0 (Value.vint 0),
      rfl, Or.inl ⟨by decide, by decide, by decide, by decide, by decide⟩⟩)

theorem join_same_multiset_witness :
    ∃ o1 o2 o3 : List Tuple,
      nljRun (.binary "EQ" (.col "a") (.col "b"))
        (Schema.merge (Schema.ofCols [("a", DataType.INT)])
          (Schema.ofCols [("b", DataType.INT)]))
        [[Value.vint 1], [Value.vint 2]]
        [[Value.vint 1], [Value.vint 3], [Value.vint 1]] = .ok o1 ∧
      bnljRun (.binary "EQ" (.col "a") (.col "b"))
        (Schema.merge (Schema.ofCols [("a", DataType.INT)])
          (Schema.ofCols [("b", DataType.INT)])) 100
        [[Value.vint 1], [Value.vint 2]]
        [[Value.vint 1], [Value.vint 3], [Value.vint 1]] = .ok o2 ∧
      hashRun (.col "a") (.col "b")
        (Schema.ofCols [("a", DataType.INT)]) (Schema.ofCols [("b", DataType.INT)])
        [[Value.vint 1], [Value.vint 2]]
        [[Value.vint 1], [Value.vint 3], [Value.vint 1]] = .ok o3 ∧
      (o1 : Multiset Tuple) = (o2 : Multiset Tuple) ∧
      (o2 : Multiset Tuple) = (o3 : Multiset Tuple) :=
  nlj_bnlj_hash_join_same_multiset (.col "a") (.col "b")
    (Schema.ofCols [("a", DataType.INT)]) (Schema.ofCols [("b", DataType.INT)])
    (fun l => l.getD 0 (Value.vint 0)) (fun r => r.getD 0 (Value.vint 0))
    [[Value.vint 1], [Value.vint 2]]
    [[Value.vint 1], [Value.vint 3], [Value.vint 1]]
    (by decide) (by decide) (by decide)

end QP
